import Mathlib

/-!
Verification development for the semantic-search repository.

This file gives a shallow embedding of the core of the repository:

* the chunk data model of src/codesense/parsers/base_parser.py
  (CodeChunk, to_dict, get_searchable_text),
* the chunk-mode indexing and incremental-update algorithm of
  src/semantic_search/indexer.py (Indexer._index_with_chunks and
  Indexer._update_index_with_chunks),
* the search algorithm of src/codesense/tools/searcher.py
  (Searcher.search, Searcher._analyze_query_intent,
  Searcher._matches_filter).

Modelling conventions:

* The embedding model is an external black box; it is a parameter
  embed : String -> Vec.  The spec requires it to be deterministic and
  order-preserving over batches, so encoding a list of texts is the map
  of embed over the list.
* The SHA-256 content hash is a parameter hashF : String -> String.
* The structural parser body (Python ast) is a parameter
  parse : String -> String -> List Chunk taking the file path and
  content; a parse failure that the source catches (SyntaxError inside
  PythonParser.parse) is a parse call returning the empty list, exactly
  as the source returns an empty chunk list in that case.
* FAISS float distances are modelled by an exact rational type Q
  (numerator and positive denominator); IndexFlatL2 is modelled by its
  documented exact linear-scan semantics (squared L2 distance, results
  sorted ascending, length min(k, ntotal)).  The 20 percent boost
  (multiply by 0.8) is multiplication by 4/5.
* A filesystem snapshot is a list of FileInput; reading a file that
  fails gives content = none.  Python truthiness of the content string
  (the source tests "if not content") makes the empty string behave
  like a failed read, and the model keeps that behaviour.
* updated_at / created_at timestamps are not modelled: theorems about
  state equality therefore say nothing about them, matching claims that
  exempt updated_at.
-/

/-- Exact rational scores: num / (denPred + 1).  A stand-in for the float
distances of FAISS, kept unnormalised so that every operation is a
structural computation the kernel can evaluate. -/
structure Q where
  num : Int
  denPred : Nat
deriving DecidableEq, Inhabited, Repr

def Q.den (q : Q) : Nat := q.denPred + 1

def Q.mul (a b : Q) : Q :=
  ⟨a.num * b.num, a.denPred * b.denPred + a.denPred + b.denPred⟩

def Q.sub (a b : Q) : Q :=
  ⟨a.num * (b.den : Int) - b.num * (a.den : Int),
   a.denPred * b.denPred + a.denPred + b.denPred⟩

def Q.add (a b : Q) : Q :=
  ⟨a.num * (b.den : Int) + b.num * (a.den : Int),
   a.denPred * b.denPred + a.denPred + b.denPred⟩

def Q.le (a b : Q) : Prop := a.num * (b.den : Int) ≤ b.num * (a.den : Int)

instance : DecidableRel Q.le := fun a b => by unfold Q.le; infer_instance

def Q.ble (a b : Q) : Bool := decide (Q.le a b)

def Q.ofInt (n : Int) : Q := ⟨n, 0⟩

theorem Q.den_pos_int (a : Q) : (0 : Int) < (a.den : Int) := by
  unfold Q.den
  exact_mod_cast Nat.succ_pos a.denPred

theorem Q.le_total (a b : Q) : Q.le a b ∨ Q.le b a :=
  Int.le_total (a.num * (b.den : Int)) (b.num * (a.den : Int))

theorem Q.le_trans {a b c : Q} (h1 : Q.le a b) (h2 : Q.le b c) : Q.le a c := by
  unfold Q.le at h1 h2 ⊢
  have hb := Q.den_pos_int b
  have ha := Q.den_pos_int a
  have hc := Q.den_pos_int c
  have h1' := mul_le_mul_of_nonneg_right h1 hc.le
  have h2' := mul_le_mul_of_nonneg_right h2 ha.le
  have key : a.num * (c.den : Int) * (b.den : Int) ≤
      c.num * (a.den : Int) * (b.den : Int) := by nlinarith [h1', h2']
  exact le_of_mul_le_mul_right key hb

/-- Ascending-by-distance order on (distance, row) pairs, as FAISS
returns its results. -/
def distLE (a b : Q × Nat) : Prop := Q.le a.1 b.1

instance : DecidableRel distLE := fun a b => by unfold distLE; infer_instance

instance : IsTotal (Q × Nat) distLE := ⟨fun a b => Q.le_total a.1 b.1⟩

instance : IsTrans (Q × Nat) distLE := ⟨fun _ _ _ => Q.le_trans⟩

/-- Vectors handed back by the embedding model / stored in FAISS. -/
def Vec := List Q
deriving DecidableEq

/-- Character-level lowercase, modelling Python str.lower on the ASCII
queries and tags involved. -/
def strLower (s : String) : String := String.mk (s.data.map Char.toLower)

def matchHere : List Char → List Char → Bool
  | _, [] => true
  | [], _ :: _ => false
  | h :: t, p :: ps => (h == p) && matchHere t ps

def hasSub : List Char → List Char → Bool
  | [], pat => pat.isEmpty
  | h :: t, pat => matchHere (h :: t) pat || hasSub t pat

/-- Python substring containment: strContains s pat models (pat in s). -/
def strContains (s pat : String) : Bool := hasSub s.data pat.data

/-- Python str.strip (used by the query-emptiness check). -/
def strStrip (s : String) : String :=
  String.mk (((s.data.dropWhile Char.isWhitespace).reverse.dropWhile
      Char.isWhitespace).reverse)

/-- Python truthiness of an optional string (None and "" are falsy). -/
def truthy : Option String → Bool
  | none => false
  | some s => !s.isEmpty

/-- In-memory CodeChunk dataclass of src/codesense/parsers/base_parser.py
(the fields the indexed pipeline uses; the chunk id is generated at
extraction time, hence part of what the parse parameter returns). -/
structure Chunk where
  chunk_id : String
  file_path : String
  chunk_type : String
  name : String
  start_line : Nat
  end_line : Nat
  signature : String
  docstring : Option String
  code : String
  parent : Option String
  imports : List String
  framework_type : Option String
  decorators : List String
  base_classes : List String
  http_method : Option String
  route_path : Option String
  model_fields : List String
deriving DecidableEq, Inhabited, Repr

/-- CodeChunk.get_searchable_text: signature, docstring, code joined with
blank lines, skipping falsy (absent or empty) fields. -/
def Chunk.getSearchableText (c : Chunk) : String :=
  String.intercalate "\n\n"
    ((if c.signature.isEmpty then [] else [c.signature]) ++
     (match c.docstring with
      | some d => if d.isEmpty then [] else [d]
      | none => []) ++
     (if c.code.isEmpty then [] else [c.code]))

/-- Persisted form of a chunk, CodeChunk.to_dict: every dataclass field
except the raw code text. -/
structure ChunkDict where
  chunk_id : String
  file_path : String
  ctype : String
  name : String
  start_line : Nat
  end_line : Nat
  signature : String
  docstring : Option String
  parent : Option String
  imports : List String
  framework_type : Option String
  decorators : List String
  base_classes : List String
  http_method : Option String
  route_path : Option String
  model_fields : List String
deriving DecidableEq, Inhabited, Repr

def Chunk.toDict (c : Chunk) : ChunkDict :=
  { chunk_id := c.chunk_id, file_path := c.file_path, ctype := c.chunk_type,
    name := c.name, start_line := c.start_line, end_line := c.end_line,
    signature := c.signature, docstring := c.docstring, parent := c.parent,
    imports := c.imports, framework_type := c.framework_type,
    decorators := c.decorators, base_classes := c.base_classes,
    http_method := c.http_method, route_path := c.route_path,
    model_fields := c.model_fields }

/-- Per-file fingerprint stored under file_metadata: hash, mtime, size. -/
structure FileRec where
  hash : String
  mtime : Int
  size : Nat
deriving DecidableEq, Inhabited, Repr

/-- One file of the directory snapshot handed to index/update: its path
relative to the indexed root and the outcome of reading it (none models
a read failure). -/
structure FileInput where
  relPath : String
  content : Option String
  mtime : Int
deriving DecidableEq, Inhabited, Repr

/-- The metadata document persisted next to the vector store (the fields
the claims are about; timestamps are not modelled). -/
structure IndexMeta where
  chunks : List ChunkDict
  fileMetadata : List (String × FileRec)
  numFiles : Nat
  numChunks : Nat
deriving DecidableEq, Inhabited

/-- A persisted (vector store, metadata) pair.  Row i of vecs corresponds
to entry i of meta.chunks. -/
structure IndexState where
  vecs : List Vec
  meta : IndexMeta
deriving DecidableEq, Inhabited

/-- First-match association-list lookup, modelling Python dict access for
the insertion-ordered metadata dictionaries. -/
def alookup {β : Type} (p : String) : List (String × β) → Option β
  | [] => none
  | (k, v) :: rest => if k = p then some v else alookup p rest

/-- One iteration of the per-file loop shared by _index_with_chunks and
_update_index_with_chunks: skip falsy content, otherwise record the
FileRecord (hash, mtime, size) and the parsed chunks with file_path
rewritten to the relative path. -/
def processFile (hashF : String → String) (parse : String → String → List Chunk)
    (f : FileInput) : Option (String × FileRec × List Chunk) :=
  match f.content with
  | none => none
  | some c =>
    if c.isEmpty then none
    else
      some (f.relPath, ⟨hashF c, f.mtime, c.length⟩,
        (parse f.relPath c).map (fun ch => { ch with file_path := f.relPath }))

def processedOf (hashF : String → String) (parse : String → String → List Chunk)
    (fs : List FileInput) : List (String × FileRec × List Chunk) :=
  fs.filterMap (processFile hashF parse)

/-- Indexer._index_with_chunks (indexer.py lines 169-259): parse every
readable file, embed every chunk's searchable text, and persist the
index; when no chunks at all were found nothing is persisted (none). -/
def indexWithChunks (embed : String → Vec) (hashF : String → String)
    (parse : String → String → List Chunk) (files : List FileInput) :
    Option IndexState :=
  let processed := processedOf hashF parse files
  let allChunks := (processed.map (fun p => p.2.2)).flatten
  if allChunks.isEmpty then none
  else
    some
      { vecs := allChunks.map (fun ch => embed ch.getSearchableText),
        meta :=
          { chunks := allChunks.map Chunk.toDict,
            fileMetadata := processed.map (fun p => (p.1, p.2.1)),
            numFiles := files.length,
            numChunks := allChunks.length } }

/-- New files: present in the snapshot, absent from the persisted
file_metadata (indexer.py lines 401-405). -/
def newFilesOf (fm : List (String × FileRec)) (files : List FileInput) :
    List FileInput :=
  files.filter (fun f => (alookup f.relPath fm).isNone)

/-- Changed files: present in both, readable with truthy content, and
with a content hash differing from the persisted one (indexer.py lines
406-414). -/
def changedFilesOf (hashF : String → String) (fm : List (String × FileRec))
    (files : List FileInput) : List FileInput :=
  files.filter (fun f =>
    match alookup f.relPath fm with
    | none => false
    | some r =>
      match f.content with
      | none => false
      | some c => !c.isEmpty && hashF c ≠ r.hash)

/-- Deleted files: persisted paths absent from the snapshot (indexer.py
lines 416-419). -/
def deletedOf (fm : List (String × FileRec)) (files : List FileInput) :
    List String :=
  (fm.filter (fun kv => !(files.map FileInput.relPath).contains kv.1)).map
    Prod.fst

/-- The (original row, chunk) pairs kept from the persisted chunk list:
chunks whose file is not in files_to_remove, at their original row
positions (indexer.py lines 437-444). -/
def keptPairs (chunks : List ChunkDict) (rm : List String) :
    List (Nat × ChunkDict) :=
  chunks.enum.filter (fun p => !rm.contains p.2.file_path)

/-- files_to_remove of the update pass: deleted plus changed paths
(indexer.py line 435; the source builds a set, only membership is used,
so a list with membership tests is equivalent). -/
def rmOf (hashF : String → String) (fm : List (String × FileRec))
    (files : List FileInput) : List String :=
  deletedOf fm files ++ (changedFilesOf hashF fm files).map FileInput.relPath

/-- The chunks freshly parsed from new and changed files during the
update pass (indexer.py lines 448-484). -/
def newChunksOf (hashF : String → String) (parse : String → String → List Chunk)
    (fm : List (String × FileRec)) (files : List FileInput) : List Chunk :=
  ((processedOf hashF parse (newFilesOf fm files ++ changedFilesOf hashF fm files)).map
    (fun p => p.2.2)).flatten

/-- The fresh FileRecords computed during the update pass for new and
changed files with truthy content. -/
def newFmOf (hashF : String → String) (parse : String → String → List Chunk)
    (fm : List (String × FileRec)) (files : List FileInput) :
    List (String × FileRec) :=
  (processedOf hashF parse (newFilesOf fm files ++ changedFilesOf hashF fm files)).map
    (fun p => (p.1, p.2.1))

/-- The reconciled state built by the rebuild branch of
_update_index_with_chunks (indexer.py lines 486-537): kept chunks at
their original relative order followed by new chunks; vectors for kept
chunks reconstructed from the old store at their old row positions,
vectors for new chunks embedded from their searchable text; file
metadata with removed paths dropped and fresh records appended. -/
def rebuildState (embed : String → Vec) (hashF : String → String)
    (parse : String → String → List Chunk) (st : IndexState)
    (files : List FileInput) : IndexState :=
  let fm := st.meta.fileMetadata
  let rm := rmOf hashF fm files
  let kp := keptPairs st.meta.chunks rm
  let newChunks := newChunksOf hashF parse fm files
  let allChunks := kp.map Prod.snd ++ newChunks.map Chunk.toDict
  let updatedFm := fm.filter (fun kv => !rm.contains kv.1) ++ newFmOf hashF parse fm files
  { vecs := (kp.map Prod.fst).map (fun i => st.vecs.getD i []) ++
      newChunks.map (fun ch => embed ch.getSearchableText),
    meta :=
      { chunks := allChunks,
        fileMetadata := updatedFm,
        numFiles := updatedFm.length,
        numChunks := allChunks.length } }

/-- Indexer._update_index_with_chunks (indexer.py lines 369-541).  The
result is the state persisted on disk after the call: the fast path
(nothing changed) re-persists the old state (with a fresh updated_at,
not modelled), the "No embeddings to index" path (no kept row index and
no new chunk text) returns without persisting, and otherwise the
reconciled state is persisted. -/
def updateIndexWithChunks (embed : String → Vec) (hashF : String → String)
    (parse : String → String → List Chunk) (st : IndexState)
    (files : List FileInput) : IndexState :=
  let fm := st.meta.fileMetadata
  if (newFilesOf fm files).isEmpty && (changedFilesOf hashF fm files).isEmpty &&
      (deletedOf fm files).isEmpty then st
  else if (keptPairs st.meta.chunks (rmOf hashF fm files)).isEmpty &&
      (newChunksOf hashF parse fm files).isEmpty then st
  else rebuildState embed hashF parse st files

/-- Squared L2 distance over the shared length of two vectors. -/
def l2sq (a b : Vec) : Q :=
  ((a.zip b).map (fun p => Q.mul (Q.sub p.1 p.2) (Q.sub p.1 p.2))).foldr
    Q.add (Q.ofInt 0)

/-- FAISS IndexFlatL2 search, by its documented exact semantics: every
stored row paired with its squared L2 distance to the query, sorted
ascending by distance, truncated to k results. -/
def faissSearchL2 (store : List Vec) (q : Vec) (k : Nat) : List (Q × Nat) :=
  ((store.enum.map (fun p => (l2sq q p.2, p.1))).insertionSort distLE).take k

/-- Searcher.SearchResult (searcher.py lines 14-55), chunk-mode fields. -/
structure SearchResult where
  file_path : String
  score : Q
  rank : Nat
  chunk_type : Option String
  name : Option String
  start_line : Option Nat
  end_line : Option Nat
  signature : Option String
  docstring : Option String
  parent : Option String
  framework_type : Option String
  http_method : Option String
  route_path : Option String
deriving DecidableEq, Inhabited, Repr

/-- The SearchResult built from a chunk record in the chunk branch of
Searcher.search (rank is assigned later, the source passes 0). -/
def mkResult (ci : ChunkDict) (score : Q) : SearchResult :=
  { file_path := ci.file_path, score := score, rank := 0,
    chunk_type := some ci.ctype, name := some ci.name,
    start_line := some ci.start_line, end_line := some ci.end_line,
    signature := some ci.signature, docstring := ci.docstring,
    parent := ci.parent, framework_type := ci.framework_type,
    http_method := ci.http_method, route_path := ci.route_path }

/-- Intent keyword groups of Searcher._analyze_query_intent, in source
order. -/
def intentKeywords : List (String × List String) :=
  [("model", ["model", "models", "schema", "schemas", "entity", "entities",
     "orm", "database table"]),
   ("route", ["route", "routes", "endpoint", "endpoints", "api", "path",
     "url"]),
   ("view", ["view", "views", "viewset", "viewsets", "template"]),
   ("serializer", ["serializer", "serializers"]),
   ("function", ["function", "def ", "method", "methods"]),
   ("class", ["class", "classes"])]

/-- Framework keyword groups of Searcher._analyze_query_intent, in source
order (checked before the generic groups). -/
def frameworkKeywords : List (String × List String) :=
  [("django", ["django", "drf", "rest_framework"]),
   ("fastapi", ["fastapi", "pydantic"]),
   ("flask", ["flask", "blueprint"])]

/-- First group whose keyword list has a member contained in the lowered
query. -/
def findIntent (ql : String) : List (String × List String) → Option String
  | [] => none
  | (name, kws) :: rest =>
    if kws.any (fun kw => strContains ql kw) then some name
    else findIntent ql rest

/-- Searcher._analyze_query_intent (searcher.py lines 197-236). -/
def analyzeQueryIntent (query : String) : Option String :=
  let ql := strLower query
  match findIntent ql frameworkKeywords with
  | some f => some f
  | none => findIntent ql intentKeywords

/-- The fixed filter-to-allowed-types table of Searcher._matches_filter. -/
def filterMappings : List (String × List String) :=
  [("model", ["django_model", "pydantic_model"]),
   ("route", ["fastapi_route", "flask_route"]),
   ("view", ["django_view"]),
   ("serializer", ["django_serializer"]),
   ("function", ["function"]),
   ("class", ["class"]),
   ("method", ["method"]),
   ("django", ["django_model", "django_view", "django_serializer"]),
   ("fastapi", ["fastapi_route", "pydantic_model"]),
   ("flask", ["flask_route", "flask_blueprint"]),
   ("django_model", ["django_model"]),
   ("django_view", ["django_view"]),
   ("django_serializer", ["django_serializer"]),
   ("fastapi_route", ["fastapi_route"]),
   ("flask_route", ["flask_route"]),
   ("pydantic_model", ["pydantic_model"])]

/-- Searcher._matches_filter (searcher.py lines 238-285).  Returns none
exactly where the source raises: for an unmapped filter string, the
fallback calls framework_type.lower() on a chunk whose framework_type is
the stored None. -/
def matchesFilter (ci : ChunkDict) (filterType : String) : Option Bool :=
  let fl := strLower filterType
  match alookup fl filterMappings with
  | some allowed =>
    some ((match ci.framework_type with
           | some fw => allowed.contains fw
           | none => false) || allowed.contains ci.ctype)
  | none =>
    match ci.framework_type with
    | none => none
    | some fw =>
      if strContains (strLower fw) fl || strContains (strLower ci.ctype) fl
      then some true
      else some (fw == filterType || ci.ctype == filterType)

/-- Python truthiness of the filter_type argument. -/
def pyFalsy : Option String → Bool
  | none => true
  | some s => s.isEmpty

/-- The chunk-branch result loop of Searcher.search (lines 139-172):
walk the FAISS candidates in ascending-distance order, skip invalid rows,
skip rows failing the active filter, boost rows matching the detected
filter by 0.8, and stop once top_k results are collected.  cnt is the
number of results accepted so far; an error is a raised Python
exception. -/
def collectChunkResults (chunks : List ChunkDict) (active detected : Option String)
    (topK : Int) (cnt : Nat) : List (Q × Nat) → Except String (List SearchResult)
  | [] => .ok []
  | (dist, idx) :: rest =>
    if idx < chunks.length then
      let ci := chunks.getD idx default
      let filt : Except String Bool :=
        match active with
        | some fl =>
          match matchesFilter ci fl with
          | some b => .ok (!b)
          | none => .error "AttributeError: NoneType has no attribute lower"
        | none => .ok false
      match filt with
      | .error e => .error e
      | .ok true => collectChunkResults chunks active detected topK cnt rest
      | .ok false =>
        let boosted : Except String Q :=
          match detected with
          | some df =>
            match matchesFilter ci df with
            | some true => .ok (Q.mul dist ⟨4, 4⟩)
            | some false => .ok dist
            | none => .error "AttributeError: NoneType has no attribute lower"
          | none => .ok dist
        match boosted with
        | .error e => .error e
        | .ok score =>
          let r := mkResult ci score
          if (cnt + 1 : Int) ≥ topK then .ok [r]
          else
            match collectChunkResults chunks active detected topK (cnt + 1) rest with
            | .error e => .error e
            | .ok rs => .ok (r :: rs)
    else collectChunkResults chunks active detected topK cnt rest

/-- Ascending order on results by (possibly boosted) score. -/
def scoreLE (a b : SearchResult) : Prop := Q.le a.score b.score

instance : DecidableRel scoreLE := fun a b => by unfold scoreLE; infer_instance

instance : IsTotal SearchResult scoreLE := ⟨fun a b => Q.le_total a.score b.score⟩

instance : IsTrans SearchResult scoreLE := ⟨fun _ _ _ => Q.le_trans⟩

/-- The final stable sort by (possibly boosted) score, Python
results.sort(key=lambda r: r.score). -/
def sortByScore (rs : List SearchResult) : List SearchResult :=
  rs.insertionSort scoreLE

/-- Rank assignment, Python enumerate(results, start=1). -/
def assignRanks (rs : List SearchResult) : List SearchResult :=
  rs.enum.map (fun p => { p.2 with rank := p.1 + 1 })

/-- Searcher.search (searcher.py lines 90-195), chunk-mode branch, over a
loaded store + chunk metadata.  Validation errors and exceptions are
Except.error; an empty store short-circuits to the empty result list. -/
def searchChunks (embed : String → Vec) (store : List Vec)
    (chunks : List ChunkDict) (query : String) (topK : Int)
    (filterType : Option String) : Except String (List SearchResult) :=
  if strStrip query = "" then .error "Search query cannot be empty"
  else if topK ≤ 0 then .error "top_k must be greater than 0"
  else if store.length = 0 then .ok []
  else
    let detected := if pyFalsy filterType then analyzeQueryIntent query else none
    let active := if pyFalsy filterType then detected else filterType
    let queryEmbedding := embed query
    let searchK := if active.isSome then topK * 10 else topK
    let actualK := min searchK (store.length : Int)
    let cands := faissSearchL2 store queryEmbedding actualK.toNat
    match collectChunkResults chunks active detected topK 0 cands with
    | .error e => .error e
    | .ok rs => .ok (assignRanks (sortByScore rs))

/-! Helper lemmas about the association-list dictionaries. -/

theorem alookup_cons {β : Type} (p k : String) (v : β) (l : List (String × β)) :
    alookup p ((k, v) :: l) = if k = p then some v else alookup p l := rfl

theorem alookup_append {β : Type} (p : String) (a b : List (String × β)) :
    alookup p (a ++ b) =
      match alookup p a with
      | some v => some v
      | none => alookup p b := by
  induction a with
  | nil => simp [alookup]
  | cons kv rest ih =>
    obtain ⟨k, v⟩ := kv
    by_cases h : k = p
    · simp [alookup_cons, h]
    · simpa [alookup_cons, h] using ih

theorem alookup_eq_none_iff {β : Type} (p : String) (l : List (String × β)) :
    alookup p l = none ↔ ∀ kv ∈ l, kv.1 ≠ p := by
  induction l with
  | nil => simp [alookup]
  | cons kv rest ih =>
    obtain ⟨k, v⟩ := kv
    by_cases h : k = p
    · simp [alookup_cons, h]
    · simp [alookup_cons, h, ih]

theorem alookup_mem {β : Type} {p : String} {l : List (String × β)} {v : β}
    (h : alookup p l = some v) : (p, v) ∈ l := by
  induction l with
  | nil => simp [alookup] at h
  | cons kv rest ih =>
    obtain ⟨k, w⟩ := kv
    by_cases hk : k = p
    · rw [alookup_cons, if_pos hk] at h
      obtain rfl := hk
      obtain rfl : w = v := by simpa using h
      exact List.mem_cons_self _ _
    · rw [alookup_cons, if_neg hk] at h
      exact List.mem_cons_of_mem _ (ih h)

theorem alookup_of_mem_nodup {β : Type} {p : String} {l : List (String × β)} {v : β}
    (hnd : (l.map Prod.fst).Nodup) (hmem : (p, v) ∈ l) : alookup p l = some v := by
  induction l with
  | nil => simp at hmem
  | cons kv rest ih =>
    obtain ⟨k, w⟩ := kv
    rw [List.map_cons, List.nodup_cons] at hnd
    rcases List.mem_cons.mp hmem with heq | htail
    · cases heq
      simp [alookup_cons]
    · by_cases hk : k = p
      · exfalso
        exact hnd.1 (hk ▸ (List.mem_map.mpr ⟨(p, v), htail, rfl⟩))
      · rw [alookup_cons, if_neg hk]
        exact ih hnd.2 htail

theorem alookup_filter_none {β : Type} {p : String} {l : List (String × β)}
    (q : String × β → Bool) (h : alookup p l = none) :
    alookup p (l.filter q) = none := by
  rw [alookup_eq_none_iff] at h ⊢
  exact fun kv hkv => h kv (List.mem_filter.mp hkv).1

theorem alookup_filter_some_nodup {β : Type} {p : String} {l : List (String × β)}
    {q : String × β → Bool} {v : β} (hnd : (l.map Prod.fst).Nodup)
    (h : alookup p (l.filter q) = some v) :
    alookup p l = some v ∧ q (p, v) = true := by
  have hmem := alookup_mem h
  have hmem' := List.mem_filter.mp hmem
  exact ⟨alookup_of_mem_nodup hnd hmem'.1, hmem'.2⟩

theorem alookup_filter_eq_of_keep {β : Type} {p : String} {l : List (String × β)}
    {q : String × β → Bool} (h : ∀ kv ∈ l, kv.1 = p → q kv = true) :
    alookup p (l.filter q) = alookup p l := by
  induction l with
  | nil => simp
  | cons kv rest ih =>
    obtain ⟨k, v⟩ := kv
    by_cases hk : k = p
    · subst hk
      have hq : q (k, v) = true := h (k, v) (List.mem_cons_self _ _) rfl
      simp [List.filter_cons, hq, alookup_cons]
    · have ih' := ih (fun kv hkv => h kv (List.mem_cons_of_mem _ hkv))
      by_cases hq : q (k, v) = true
      · simp [List.filter_cons, hq, alookup_cons, hk, ih']
      · simp only [Bool.not_eq_true] at hq
        simp [List.filter_cons, hq, alookup_cons, hk, ih']

theorem alookup_isSome_of_key_mem {β : Type} {p : String} {l : List (String × β)}
    (h : p ∈ l.map Prod.fst) : (alookup p l).isSome = true := by
  rcases ho : alookup p l with _ | v
  · rw [alookup_eq_none_iff] at ho
    obtain ⟨kv, hkv, hfst⟩ := List.mem_map.mp h
    exact absurd hfst (ho kv hkv)
  · rfl

/-! Helper lemmas connecting rows, zips and the kept-pairs computation. -/

theorem zip_enum_getD {α β : Type} (c : List α) (v : List β) (d : β)
    (h : c.length = v.length) :
    c.enum.map (fun p => (p.2, v.getD p.1 d)) = c.zip v := by
  apply List.ext_getElem
  · simp [List.enum_length, List.length_zip, h]
  · intro n h₁ h₂
    simp only [List.getElem_map, List.getElem_enum, List.getElem_zip]
    have hn : n < v.length := by
      simpa [List.enum_length, h] using h₁
    rw [List.getD_eq_getElem v d hn]

theorem mem_enum_fst_lt {α : Type} {l : List α} {p : ℕ × α} (h : p ∈ l.enum) :
    p.1 < l.length := by
  obtain ⟨i, a⟩ := p
  exact (List.mem_enum h).1

theorem mem_enum_getD {α : Type} {l : List α} {p : ℕ × α} (d : α)
    (h : p ∈ l.enum) : l.getD p.1 d = p.2 := by
  obtain ⟨i, a⟩ := p
  obtain ⟨hlt, hget⟩ := List.mem_enum h
  rw [List.getD_eq_getElem _ _ hlt]
  exact hget.symm

theorem findIntent_append (ql : String) (a b : List (String × List String)) :
    findIntent ql (a ++ b) =
      match findIntent ql a with
      | some f => some f
      | none => findIntent ql b := by
  induction a with
  | nil => simp [findIntent]
  | cons g rest ih =>
    obtain ⟨name, kws⟩ := g
    by_cases h : kws.any (fun kw => strContains ql kw) = true
    · simp [findIntent, h]
    · simp only [Bool.not_eq_true] at h
      simpa [findIntent, h] using ih

/-! Characterisations of the three exits of updateIndexWithChunks. -/

theorem update_eq_of_fast {embed : String → Vec} {hashF : String → String}
    {parse : String → String → List Chunk} {st : IndexState} {files : List FileInput}
    (h : ((newFilesOf st.meta.fileMetadata files).isEmpty &&
      (changedFilesOf hashF st.meta.fileMetadata files).isEmpty &&
      (deletedOf st.meta.fileMetadata files).isEmpty) = true) :
    updateIndexWithChunks embed hashF parse st files = st := by
  unfold updateIndexWithChunks
  simp [h]

theorem update_eq_of_nosave {embed : String → Vec} {hashF : String → String}
    {parse : String → String → List Chunk} {st : IndexState} {files : List FileInput}
    (h2 : ((keptPairs st.meta.chunks (rmOf hashF st.meta.fileMetadata files)).isEmpty &&
      (newChunksOf hashF parse st.meta.fileMetadata files).isEmpty) = true) :
    updateIndexWithChunks embed hashF parse st files = st := by
  unfold updateIndexWithChunks
  by_cases h1 : ((newFilesOf st.meta.fileMetadata files).isEmpty &&
      (changedFilesOf hashF st.meta.fileMetadata files).isEmpty &&
      (deletedOf st.meta.fileMetadata files).isEmpty) = true
  · simp [h1]
  · simp only [Bool.not_eq_true] at h1
    simp [h1, h2]

theorem update_eq_of_rebuild {embed : String → Vec} {hashF : String → String}
    {parse : String → String → List Chunk} {st : IndexState} {files : List FileInput}
    (h1 : ((newFilesOf st.meta.fileMetadata files).isEmpty &&
      (changedFilesOf hashF st.meta.fileMetadata files).isEmpty &&
      (deletedOf st.meta.fileMetadata files).isEmpty) = false)
    (h2 : ((keptPairs st.meta.chunks (rmOf hashF st.meta.fileMetadata files)).isEmpty &&
      (newChunksOf hashF parse st.meta.fileMetadata files).isEmpty) = false) :
    updateIndexWithChunks embed hashF parse st files =
      rebuildState embed hashF parse st files := by
  unfold updateIndexWithChunks
  simp [h1, h2]

/-! Claim C5: input validation and the empty-store short-circuit of
Searcher.search. -/

/-- C5.  Searcher.search raises ValueError for an empty or
whitespace-only query and for non-positive top_k, and the result in
those cases is the same for every embedding function and every store,
i.e. it is produced before any embedding or index lookup; for a valid
query against a store with zero rows it returns the empty result list
without error.  (searcher.py lines 104-112) -/
theorem searcher_validation (embed : String → Vec) (store : List Vec)
    (chunks : List ChunkDict) (query : String) (topK : Int) (ft : Option String) :
    (strStrip query = "" →
      searchChunks embed store chunks query topK ft =
        .error "Search query cannot be empty")
    ∧ (strStrip query ≠ "" → topK ≤ 0 →
      searchChunks embed store chunks query topK ft =
        .error "top_k must be greater than 0")
    ∧ (strStrip query ≠ "" → 0 < topK → store.length = 0 →
      searchChunks embed store chunks query topK ft = .ok []) := by
  refine ⟨?_, ?_, ?_⟩
  · intro h
    unfold searchChunks
    simp [h]
  · intro h1 h2
    unfold searchChunks
    simp [h1, h2]
  · intro h1 h2 h3
    unfold searchChunks
    simp [h1, h3, not_le.mpr h2]

/-- Witness for C5 at concrete inputs. -/
theorem searcher_validation_witness :
    (searchChunks (fun _ => []) [[Q.ofInt 1]] [] "  " 5 none =
      .error "Search query cannot be empty")
    ∧ (searchChunks (fun _ => []) [[Q.ofInt 1]] [] "q" 0 none =
      .error "top_k must be greater than 0")
    ∧ (searchChunks (fun _ => []) [] [] "q" 3 none = .ok []) :=
  ⟨(searcher_validation (fun _ => []) [[Q.ofInt 1]] [] "  " 5 none).1 (by decide),
   (searcher_validation (fun _ => []) [[Q.ofInt 1]] [] "q" 0 none).2.1
     (by decide) (by decide),
   (searcher_validation (fun _ => []) [] [] "q" 3 none).2.2
     (by decide) (by decide) (by decide)⟩

/-! Claim C6: query intent detection. -/

/-- Intent detection as the spec words it: lower-case the query and scan
the ordered keyword groups, framework-name groups first, then the
generic category groups; the first group with a keyword contained in the
query wins, and no group matching means no inferred filter. -/
def detectFilterSpec (query : String) : Option String :=
  findIntent (strLower query) (frameworkKeywords ++ intentKeywords)

/-- C6.  Searcher._analyze_query_intent equals the spec's ordered
first-match scan over framework groups then generic category groups, and
on the query "user authentication model" it detects the filter
"model".  (searcher.py lines 197-236) -/
theorem analyze_query_intent_spec :
    (∀ q : String, analyzeQueryIntent q = detectFilterSpec q)
    ∧ analyzeQueryIntent "user authentication model" = some "model" := by
  constructor
  · intro q
    unfold analyzeQueryIntent detectFilterSpec
    rw [findIntent_append]
  · decide

/-! Claim C1: the positional chunk-row correspondence invariant. -/

/-- The central invariant: the persisted chunk list is the to_dict image
of a list of extracted chunks, and row i of the persisted vector store
is the embedding of the searchable text of chunk i of that list. -/
def Faithful (embed : String → Vec) (st : IndexState) : Prop :=
  ∃ origs : List Chunk,
    st.meta.chunks = origs.map Chunk.toDict ∧
    st.vecs = origs.map (fun c => embed c.getSearchableText)

theorem Faithful.length_eq {embed : String → Vec} {st : IndexState}
    (h : Faithful embed st) : st.meta.chunks.length = st.vecs.length := by
  obtain ⟨origs, hc, hv⟩ := h
  rw [hc, hv, List.length_map, List.length_map]

theorem index_faithful {embed : String → Vec} {hashF : String → String}
    {parse : String → String → List Chunk} {files : List FileInput}
    {st : IndexState} (h : indexWithChunks embed hashF parse files = some st) :
    Faithful embed st := by
  unfold indexWithChunks at h
  by_cases he : ((processedOf hashF parse files).map (fun p => p.2.2)).flatten.isEmpty = true
  · simp [he] at h
  · simp only [Bool.not_eq_true] at he
    simp only [he, Bool.false_eq_true, if_false, Option.some.injEq] at h
    exact ⟨((processedOf hashF parse files).map (fun p => p.2.2)).flatten,
      by rw [← h], by rw [← h]⟩

theorem keptPairs_map_toDict (origs : List Chunk) (rm : List String) :
    keptPairs (origs.map Chunk.toDict) rm =
      (origs.enum.filter (fun p => !rm.contains p.2.file_path)).map
        (fun p => (p.1, p.2.toDict)) := by
  unfold keptPairs
  rw [List.enum_map, List.filter_map]
  have hpred : ((fun p : ℕ × ChunkDict => !rm.contains p.2.file_path) ∘
      Prod.map id Chunk.toDict) =
      (fun p : ℕ × Chunk => !rm.contains p.2.file_path) := by
    funext p
    obtain ⟨i, c⟩ := p
    rfl
  rw [hpred]
  exact List.map_congr_left (fun p _ => by obtain ⟨i, c⟩ := p; rfl)

theorem rebuild_faithful (embed : String → Vec) (hashF : String → String)
    (parse : String → String → List Chunk) (st : IndexState)
    (files : List FileInput) (h : Faithful embed st) :
    Faithful embed (rebuildState embed hashF parse st files) := by
  obtain ⟨origs, hc, hv⟩ := h
  refine ⟨(origs.enum.filter (fun p =>
      !(rmOf hashF st.meta.fileMetadata files).contains p.2.file_path)).map Prod.snd ++
    newChunksOf hashF parse st.meta.fileMetadata files, ?_, ?_⟩
  · show (rebuildState embed hashF parse st files).meta.chunks = _
    simp only [rebuildState, hc, keptPairs_map_toDict, List.map_append,
      List.map_map]
    rfl
  · show (rebuildState embed hashF parse st files).vecs = _
    simp only [rebuildState, hc, hv, keptPairs_map_toDict, List.map_append,
      List.map_map]
    congr 1
    apply List.map_congr_left
    intro p hp
    have hmem : p ∈ origs.enum := (List.mem_filter.mp hp).1
    have hlt : p.1 < origs.length := mem_enum_fst_lt hmem
    have hlt' : p.1 < (origs.map (fun c => embed c.getSearchableText)).length := by
      simpa using hlt
    show (origs.map (fun c => embed c.getSearchableText)).getD p.1 [] =
      embed p.2.getSearchableText
    rw [List.getD_eq_getElem _ _ hlt', List.getElem_map]
    obtain ⟨i, c⟩ := p
    have hsnd := (List.mem_enum hmem).2
    simp only at hsnd
    rw [← hsnd]

theorem update_faithful {embed : String → Vec} (hashF : String → String)
    (parse : String → String → List Chunk) {st : IndexState}
    (files : List FileInput) (h : Faithful embed st) :
    Faithful embed (updateIndexWithChunks embed hashF parse st files) := by
  cases h1 : ((newFilesOf st.meta.fileMetadata files).isEmpty &&
      (changedFilesOf hashF st.meta.fileMetadata files).isEmpty &&
      (deletedOf st.meta.fileMetadata files).isEmpty) with
  | true => rw [update_eq_of_fast h1]; exact h
  | false =>
    cases h2 : ((keptPairs st.meta.chunks (rmOf hashF st.meta.fileMetadata files)).isEmpty &&
        (newChunksOf hashF parse st.meta.fileMetadata files).isEmpty) with
    | true => rw [update_eq_of_nosave h2]; exact h
    | false =>
      rw [update_eq_of_rebuild h1 h2]
      exact rebuild_faithful embed hashF parse st files h

theorem faiss_indices_lt (store : List Vec) (q : Vec) (k : ℕ) :
    ∀ p ∈ faissSearchL2 store q k, p.2 < store.length := by
  intro p hp
  unfold faissSearchL2 at hp
  have h1 := List.mem_of_mem_take hp
  have h2 := (List.perm_insertionSort distLE _).mem_iff.mp h1
  obtain ⟨q', hq', rfl⟩ := List.mem_map.mp h2
  exact mem_enum_fst_lt hq'

/-- C1.  For every chunk-mode index persisted by index_directory or
update_index: the metadata chunk list and the vector store have the same
number of entries, and the vector at row i is the embedding of the
searchable text of the chunk persisted at position i (the Faithful
invariant, established by indexing and preserved by updating); moreover
every row index handed back by a vector-store search is a natural
number below the store size, hence lies in [0, size).
(indexer.py lines 221-257 and 486-537) -/
theorem chunk_row_invariant :
    (∀ (embed : String → Vec) (hashF : String → String)
        (parse : String → String → List Chunk) (files : List FileInput)
        (st : IndexState), indexWithChunks embed hashF parse files = some st →
        Faithful embed st ∧ st.meta.chunks.length = st.vecs.length)
    ∧ (∀ (embed : String → Vec) (hashF : String → String)
        (parse : String → String → List Chunk) (st : IndexState)
        (files : List FileInput), Faithful embed st →
        Faithful embed (updateIndexWithChunks embed hashF parse st files) ∧
        (updateIndexWithChunks embed hashF parse st files).meta.chunks.length =
          (updateIndexWithChunks embed hashF parse st files).vecs.length)
    ∧ (∀ (store : List Vec) (q : Vec) (k : ℕ),
        ∀ p ∈ faissSearchL2 store q k, p.2 < store.length) := by
  refine ⟨?_, ?_, faiss_indices_lt⟩
  · intro embed hashF parse files st h
    have hf := index_faithful h
    exact ⟨hf, hf.length_eq⟩
  · intro embed hashF parse st files h
    have hf := update_faithful hashF parse files h
    exact ⟨hf, hf.length_eq⟩

/-- Concrete embedding function used by witnesses: the length of the
text as a one-dimensional vector. -/
def embedW : String → Vec := fun s => [Q.ofInt (Int.ofNat s.length)]

/-- Concrete stand-in hash used by witnesses (the identity is injective
on the tiny witness contents, as SHA-256 is collision-free there). -/
def hashW : String → String := fun s => s

/-- The one chunk the witness parse function extracts: a function chunk
whose code is the file content. -/
def chunkW0 (c : String) : Chunk :=
  { (default : Chunk) with
    chunk_id := "w1", chunk_type := "function",
    name := "f", signature := "def f():", code := c }

/-- Concrete parse function used by witnesses. -/
def parseW : String → String → List Chunk := fun _ c => [chunkW0 c]

def filesW : List FileInput := [⟨"a.py", some "x", 0⟩]

def chunkW : Chunk := { chunkW0 "x" with file_path := "a.py" }

def stW : IndexState :=
  { vecs := [embedW chunkW.getSearchableText],
    meta :=
      { chunks := [chunkW.toDict],
        fileMetadata := [("a.py", ⟨"x", 0, 1⟩)],
        numFiles := 1, numChunks := 1 } }

/-- Witness for C1 at a concrete one-file index. -/
theorem chunk_row_invariant_witness :
    (Faithful embedW stW ∧ stW.meta.chunks.length = stW.vecs.length)
    ∧ (Faithful embedW (updateIndexWithChunks embedW hashW parseW stW filesW) ∧
      (updateIndexWithChunks embedW hashW parseW stW filesW).meta.chunks.length =
        (updateIndexWithChunks embedW hashW parseW stW filesW).vecs.length)
    ∧ (Q.ofInt 1, 0).2 < [[Q.ofInt 1]].length :=
  ⟨chunk_row_invariant.1 embedW hashW parseW filesW stW (by decide),
   chunk_row_invariant.2.1 embedW hashW parseW stW filesW ⟨[chunkW], rfl, rfl⟩,
   chunk_row_invariant.2.2 [[Q.ofInt 1]] [Q.ofInt 0] 1 (Q.ofInt 1, 0) (by decide)⟩

/-! Helper lemmas about processFile and the shapes produced by
indexWithChunks. -/

theorem processFile_eq_none {hashF : String → String}
    {parse : String → String → List Chunk} {f : FileInput}
    (h : f.content = some "") : processFile hashF parse f = none := by
  unfold processFile
  rw [h]
  rfl

theorem processFile_some_parts {hashF : String → String}
    {parse : String → String → List Chunk} {g : FileInput}
    {x : String × FileRec × List Chunk}
    (h : processFile hashF parse g = some x) :
    x.1 = g.relPath ∧
    (∃ c, g.content = some c ∧ c.isEmpty = false ∧
      x.2.1 = ⟨hashF c, g.mtime, c.length⟩ ∧
      x.2.2 = (parse g.relPath c).map (fun ch => { ch with file_path := g.relPath })) := by
  unfold processFile at h
  split at h
  · exact absurd h (by simp)
  · rename_i c hg
    split at h
    · exact absurd h (by simp)
    · rename_i hce
      injection h with h'
      subst h'
      exact ⟨rfl, c, hg, by simpa using hce, rfl, rfl⟩

theorem processFile_chunk_path {hashF : String → String}
    {parse : String → String → List Chunk} {g : FileInput}
    {x : String × FileRec × List Chunk}
    (h : processFile hashF parse g = some x) :
    ∀ ch ∈ x.2.2, ch.file_path = g.relPath := by
  obtain ⟨-, c, -, -, -, hch⟩ := processFile_some_parts h
  intro ch hmem
  rw [hch] at hmem
  obtain ⟨ch0, -, rfl⟩ := List.mem_map.mp hmem
  rfl

theorem mem_processedOf {hashF : String → String}
    {parse : String → String → List Chunk} {fs : List FileInput}
    {x : String × FileRec × List Chunk} :
    x ∈ processedOf hashF parse fs ↔
      ∃ g ∈ fs, processFile hashF parse g = some x := List.mem_filterMap

theorem index_some_shape {embed : String → Vec} {hashF : String → String}
    {parse : String → String → List Chunk} {files : List FileInput}
    {st : IndexState} (h : indexWithChunks embed hashF parse files = some st) :
    st.meta.chunks =
      (((processedOf hashF parse files).map (fun p => p.2.2)).flatten).map
        Chunk.toDict ∧
    st.meta.fileMetadata = (processedOf hashF parse files).map (fun p => (p.1, p.2.1)) := by
  unfold indexWithChunks at h
  by_cases he : ((processedOf hashF parse files).map (fun p => p.2.2)).flatten.isEmpty = true
  · simp [he] at h
  · simp only [Bool.not_eq_true] at he
    simp only [he, Bool.false_eq_true, if_false, Option.some.injEq] at h
    exact ⟨by rw [← h], by rw [← h]⟩

/-! Claim C10: files whose content reads as the empty string. -/

/-- C10.  A file whose content reads as the empty string is skipped by
the per-file loop of _index_with_chunks: the persisted index records no
FileRecord and no chunk for it.  Consequently every later update
classifies the file as New (its path is absent from the persisted
records), so the no-op fast path of _update_index_with_chunks (guarded
by all three change lists being empty) cannot be taken, and the file
stays absent from the persisted FileRecords afterwards.
(indexer.py lines 190-206, 401-419, 427-432) -/
theorem empty_file_reindexed (embed : String → Vec) (hashF : String → String)
    (parse : String → String → List Chunk) (files : List FileInput)
    (f : FileInput) (hnd : (files.map FileInput.relPath).Nodup)
    (hf : f ∈ files) (hfc : f.content = some "") :
    (∀ st : IndexState, indexWithChunks embed hashF parse files = some st →
      alookup f.relPath st.meta.fileMetadata = none ∧
      ∀ ch ∈ st.meta.chunks, ch.file_path ≠ f.relPath)
    ∧ (∀ st' : IndexState, alookup f.relPath st'.meta.fileMetadata = none →
      f ∈ newFilesOf st'.meta.fileMetadata files ∧
      ((newFilesOf st'.meta.fileMetadata files).isEmpty &&
        (changedFilesOf hashF st'.meta.fileMetadata files).isEmpty &&
        (deletedOf st'.meta.fileMetadata files).isEmpty) = false ∧
      alookup f.relPath
        (updateIndexWithChunks embed hashF parse st' files).meta.fileMetadata = none) := by
  have hkey : ∀ (g : FileInput) (x : String × FileRec × List Chunk), g ∈ files →
      processFile hashF parse g = some x → x.1 ≠ f.relPath := by
    intro g x hg hx hxk
    have hgk : g.relPath = f.relPath := (processFile_some_parts hx).1 ▸ hxk
    have : g = f := List.inj_on_of_nodup_map hnd hg hf hgk
    subst this
    rw [processFile_eq_none hfc] at hx
    exact absurd hx (by simp)
  constructor
  · intro st hix
    obtain ⟨hch, hfm⟩ := index_some_shape hix
    constructor
    · rw [hfm, alookup_eq_none_iff]
      intro kv hkv
      obtain ⟨x, hx, rfl⟩ := List.mem_map.mp hkv
      obtain ⟨g, hg, hgx⟩ := mem_processedOf.mp hx
      exact hkey g x hg hgx
    · intro ch hchmem
      rw [hch] at hchmem
      obtain ⟨ch0, hch0, rfl⟩ := List.mem_map.mp hchmem
      obtain ⟨lst, hlst, hch0l⟩ := List.mem_flatten.mp hch0
      obtain ⟨x, hx, rfl⟩ := List.mem_map.mp hlst
      obtain ⟨g, hg, hgx⟩ := mem_processedOf.mp hx
      have : ch0.file_path = g.relPath := processFile_chunk_path hgx ch0 hch0l
      show (Chunk.toDict ch0).file_path ≠ f.relPath
      rw [show (Chunk.toDict ch0).file_path = ch0.file_path from rfl, this]
      exact fun hgk => hkey g _ hg hgx ((processFile_some_parts hgx).1.trans hgk)
  · intro st' hnone
    have hmemNew : f ∈ newFilesOf st'.meta.fileMetadata files := by
      unfold newFilesOf
      rw [List.mem_filter]
      exact ⟨hf, by rw [hnone]; rfl⟩
    have hguard : ((newFilesOf st'.meta.fileMetadata files).isEmpty &&
        (changedFilesOf hashF st'.meta.fileMetadata files).isEmpty &&
        (deletedOf st'.meta.fileMetadata files).isEmpty) = false := by
      have : (newFilesOf st'.meta.fileMetadata files).isEmpty = false :=
        List.isEmpty_eq_false.mpr (List.ne_nil_of_mem hmemNew)
      rw [this]
      rfl
    refine ⟨hmemNew, hguard, ?_⟩
    have hnewfm : alookup f.relPath
        (newFmOf hashF parse st'.meta.fileMetadata files) = none := by
      rw [alookup_eq_none_iff]
      intro kv hkv
      obtain ⟨x, hx, rfl⟩ := List.mem_map.mp hkv
      obtain ⟨g, hg, hgx⟩ := mem_processedOf.mp hx
      have hgfiles : g ∈ files := by
        rcases List.mem_append.mp hg with hgn | hgc
        · exact (List.mem_filter.mp hgn).1
        · exact (List.mem_filter.mp hgc).1
      exact hkey g x hgfiles hgx
    cases h2 : ((keptPairs st'.meta.chunks (rmOf hashF st'.meta.fileMetadata files)).isEmpty &&
        (newChunksOf hashF parse st'.meta.fileMetadata files).isEmpty) with
    | true => rw [update_eq_of_nosave h2]; exact hnone
    | false =>
      rw [update_eq_of_rebuild hguard h2]
      show alookup f.relPath
        (st'.meta.fileMetadata.filter _ ++ newFmOf hashF parse st'.meta.fileMetadata files) = none
      rw [alookup_append, alookup_filter_none _ hnone]
      exact hnewfm

def fEmptyW : FileInput := ⟨"e.py", some "", 0⟩

def filesEmptyW : List FileInput := [⟨"a.py", some "x", 0⟩, fEmptyW]

/-- The state persisted when indexing filesEmptyW: only a.py contributes
a record and a chunk, while num_files counts both collected files. -/
def stEmptyW : IndexState :=
  { vecs := [embedW chunkW.getSearchableText],
    meta :=
      { chunks := [chunkW.toDict],
        fileMetadata := [("a.py", ⟨"x", 0, 1⟩)],
        numFiles := 2, numChunks := 1 } }

/-- Witness for C10 at a concrete two-file snapshot with one empty file. -/
theorem empty_file_reindexed_witness :
    (alookup fEmptyW.relPath stEmptyW.meta.fileMetadata = none ∧
      ∀ ch ∈ stEmptyW.meta.chunks, ch.file_path ≠ fEmptyW.relPath)
    ∧ (fEmptyW ∈ newFilesOf stEmptyW.meta.fileMetadata filesEmptyW ∧
      ((newFilesOf stEmptyW.meta.fileMetadata filesEmptyW).isEmpty &&
        (changedFilesOf hashW stEmptyW.meta.fileMetadata filesEmptyW).isEmpty &&
        (deletedOf stEmptyW.meta.fileMetadata filesEmptyW).isEmpty) = false ∧
      alookup fEmptyW.relPath
        (updateIndexWithChunks embedW hashW parseW stEmptyW filesEmptyW).meta.fileMetadata =
        none) :=
  ⟨(empty_file_reindexed embedW hashW parseW filesEmptyW fEmptyW (by decide)
      (by decide) (by decide)).1 stEmptyW (by decide),
   (empty_file_reindexed embedW hashW parseW filesEmptyW fEmptyW (by decide)
      (by decide) (by decide)).2 stEmptyW (by decide)⟩

/-! Projections of the rebuild branch (definitional). -/

theorem rebuildState_chunks (embed : String → Vec) (hashF : String → String)
    (parse : String → String → List Chunk) (st : IndexState)
    (files : List FileInput) :
    (rebuildState embed hashF parse st files).meta.chunks =
      (keptPairs st.meta.chunks (rmOf hashF st.meta.fileMetadata files)).map Prod.snd ++
      (newChunksOf hashF parse st.meta.fileMetadata files).map Chunk.toDict := rfl

theorem rebuildState_vecs (embed : String → Vec) (hashF : String → String)
    (parse : String → String → List Chunk) (st : IndexState)
    (files : List FileInput) :
    (rebuildState embed hashF parse st files).vecs =
      ((keptPairs st.meta.chunks (rmOf hashF st.meta.fileMetadata files)).map Prod.fst).map
        (fun i => st.vecs.getD i []) ++
      (newChunksOf hashF parse st.meta.fileMetadata files).map
        (fun ch => embed ch.getSearchableText) := rfl

theorem rebuildState_fm (embed : String → Vec) (hashF : String → String)
    (parse : String → String → List Chunk) (st : IndexState)
    (files : List FileInput) :
    (rebuildState embed hashF parse st files).meta.fileMetadata =
      st.meta.fileMetadata.filter
        (fun kv => !(rmOf hashF st.meta.fileMetadata files).contains kv.1) ++
      newFmOf hashF parse st.meta.fileMetadata files := rfl

theorem rebuildState_numFiles (embed : String → Vec) (hashF : String → String)
    (parse : String → String → List Chunk) (st : IndexState)
    (files : List FileInput) :
    (rebuildState embed hashF parse st files).meta.numFiles =
      (rebuildState embed hashF parse st files).meta.fileMetadata.length := rfl

theorem rebuildState_numChunks (embed : String → Vec) (hashF : String → String)
    (parse : String → String → List Chunk) (st : IndexState)
    (files : List FileInput) :
    (rebuildState embed hashF parse st files).meta.numChunks =
      (rebuildState embed hashF parse st files).meta.chunks.length := rfl

/-! Facts about the classification of an unchanged file. -/

theorem mem_newChunksOf {hashF : String → String}
    {parse : String → String → List Chunk} {fm : List (String × FileRec)}
    {files : List FileInput} {ch : Chunk}
    (h : ch ∈ newChunksOf hashF parse fm files) :
    ∃ g ∈ newFilesOf fm files ++ changedFilesOf hashF fm files,
      ch.file_path = g.relPath := by
  unfold newChunksOf at h
  obtain ⟨lst, hlst, hchl⟩ := List.mem_flatten.mp h
  obtain ⟨x, hx, rfl⟩ := List.mem_map.mp hlst
  obtain ⟨g, hg, hgx⟩ := mem_processedOf.mp hx
  exact ⟨g, hg, processFile_chunk_path hgx ch hchl⟩

theorem mem_of_mem_newChanged {hashF : String → String}
    {fm : List (String × FileRec)} {files : List FileInput} {g : FileInput}
    (h : g ∈ newFilesOf fm files ++ changedFilesOf hashF fm files) :
    g ∈ files := by
  rcases List.mem_append.mp h with hgn | hgc
  · exact (List.mem_filter.mp hgn).1
  · exact (List.mem_filter.mp hgc).1

theorem unchanged_not_new {fm : List (String × FileRec)}
    {files : List FileInput} {f : FileInput} {r : FileRec}
    (hr : alookup f.relPath fm = some r) : f ∉ newFilesOf fm files := by
  intro hmem
  have := (List.mem_filter.mp hmem).2
  rw [hr] at this
  exact absurd this (by simp)

theorem unchanged_not_changed {hashF : String → String}
    {fm : List (String × FileRec)} {files : List FileInput} {f : FileInput}
    {c : String} {r : FileRec} (hc : f.content = some c)
    (hr : alookup f.relPath fm = some r) (hhash : hashF c = r.hash) :
    f ∉ changedFilesOf hashF fm files := by
  intro hmem
  have hpred := (List.mem_filter.mp hmem).2
  rw [hr] at hpred
  simp only [hc] at hpred
  rw [hhash] at hpred
  simp at hpred

theorem unchanged_not_removed {hashF : String → String}
    {fm : List (String × FileRec)} {files : List FileInput} {f : FileInput}
    {c : String} {r : FileRec}
    (hnd : (files.map FileInput.relPath).Nodup) (hf : f ∈ files)
    (hc : f.content = some c)
    (hr : alookup f.relPath fm = some r) (hhash : hashF c = r.hash) :
    f.relPath ∉ rmOf hashF fm files := by
  intro hmem
  rcases List.mem_append.mp hmem with hdel | hchg
  · unfold deletedOf at hdel
    obtain ⟨kv, hkv, hkvp⟩ := List.mem_map.mp hdel
    have hnc := (List.mem_filter.mp hkv).2
    rw [hkvp] at hnc
    have : f.relPath ∈ files.map FileInput.relPath := List.mem_map.mpr ⟨f, hf, rfl⟩
    simp [List.contains, List.elem_eq_mem, this] at hnc
  · obtain ⟨g, hg, hgp⟩ := List.mem_map.mp hchg
    have hgfiles : g ∈ files := (List.mem_filter.mp hg).1
    have : g = f := List.inj_on_of_nodup_map hnd hgfiles hf hgp
    subst this
    exact unchanged_not_changed hc hr hhash hg

/-- C2.  If only other files changed (file f with path p is present in
the snapshot with content whose hash matches its persisted FileRecord),
then after update_index the (chunk, vector) rows whose chunk has
file_path p are exactly the rows they were before, in the same relative
order: the persisted chunk dictionaries are bit-for-bit identical
(including chunk_id), and the vectors paired with them are the old
stored vectors taken from the old row positions (reconstructed, not
re-embedded: the equality holds for every embedding function).
(indexer.py lines 434-444 and 489-494) -/
theorem unchanged_file_rows_preserved (embed : String → Vec)
    (hashF : String → String) (parse : String → String → List Chunk)
    (st : IndexState) (files : List FileInput) (p : String) (f : FileInput)
    (c : String) (r : FileRec)
    (hlen : st.meta.chunks.length = st.vecs.length)
    (hnd : (files.map FileInput.relPath).Nodup)
    (hf : f ∈ files) (hfp : f.relPath = p)
    (hc : f.content = some c) (hce : c.isEmpty = false)
    (hr : alookup p st.meta.fileMetadata = some r)
    (hhash : hashF c = r.hash) :
    ((updateIndexWithChunks embed hashF parse st files).meta.chunks.zip
      (updateIndexWithChunks embed hashF parse st files).vecs).filter
        (fun cv => cv.1.file_path == p) =
      (st.meta.chunks.zip st.vecs).filter (fun cv => cv.1.file_path == p) := by
  subst hfp
  cases h1 : ((newFilesOf st.meta.fileMetadata files).isEmpty &&
      (changedFilesOf hashF st.meta.fileMetadata files).isEmpty &&
      (deletedOf st.meta.fileMetadata files).isEmpty) with
  | true => rw [update_eq_of_fast h1]
  | false =>
    cases h2 : ((keptPairs st.meta.chunks (rmOf hashF st.meta.fileMetadata files)).isEmpty &&
        (newChunksOf hashF parse st.meta.fileMetadata files).isEmpty) with
    | true => rw [update_eq_of_nosave h2]
    | false =>
      rw [update_eq_of_rebuild h1 h2]
      have hnotrm : f.relPath ∉ rmOf hashF st.meta.fileMetadata files :=
        unchanged_not_removed hnd hf hc hr hhash
      rw [rebuildState_chunks, rebuildState_vecs]
      rw [List.zip_append (by simp [List.length_map]), List.filter_append]
      have hnewnil : ((newChunksOf hashF parse st.meta.fileMetadata files).map
          Chunk.toDict).zip ((newChunksOf hashF parse st.meta.fileMetadata files).map
            (fun ch => embed ch.getSearchableText)) =
          (newChunksOf hashF parse st.meta.fileMetadata files).map
            (fun ch => (ch.toDict, embed ch.getSearchableText)) := List.zip_map' _ _ _
      rw [hnewnil]
      have hnewfilter : ((newChunksOf hashF parse st.meta.fileMetadata files).map
          (fun ch => (ch.toDict, embed ch.getSearchableText))).filter
            (fun cv => cv.1.file_path == f.relPath) = [] := by
        rw [List.filter_eq_nil_iff]
        intro cv hcv
        obtain ⟨ch, hch, rfl⟩ := List.mem_map.mp hcv
        obtain ⟨g, hg, hgp⟩ := mem_newChunksOf hch
        have hgfiles := mem_of_mem_newChanged hg
        show ¬(ch.toDict.file_path == f.relPath) = true
        rw [show ch.toDict.file_path = ch.file_path from rfl, hgp]
        intro hbeq
        have : g.relPath = f.relPath := by simpa using hbeq
        have hgf : g = f := List.inj_on_of_nodup_map hnd hgfiles hf this
        subst hgf
        rcases List.mem_append.mp hg with hn | hcg
        · exact unchanged_not_new hr hn
        · exact unchanged_not_changed hc hr hhash hcg
      rw [hnewfilter, List.append_nil]
      have hkzip : ((keptPairs st.meta.chunks (rmOf hashF st.meta.fileMetadata files)).map
          Prod.snd).zip (((keptPairs st.meta.chunks
            (rmOf hashF st.meta.fileMetadata files)).map Prod.fst).map
              (fun i => st.vecs.getD i [])) =
          (keptPairs st.meta.chunks (rmOf hashF st.meta.fileMetadata files)).map
            (fun pr => (pr.2, st.vecs.getD pr.1 [])) := by
        rw [List.map_map]
        exact List.zip_map' _ _ _
      rw [hkzip]
      unfold keptPairs
      rw [← zip_enum_getD st.meta.chunks st.vecs [] hlen]
      rw [List.filter_map, List.filter_map, List.filter_filter]
      congr 1
      apply List.filter_congr
      intro pr hpr
      show ((pr.2.file_path == f.relPath) &&
        !(rmOf hashF st.meta.fileMetadata files).contains pr.2.file_path) =
        (pr.2.file_path == f.relPath)
      by_cases hb : (pr.2.file_path == f.relPath) = true
      · have : pr.2.file_path = f.relPath := by simpa using hb
        rw [hb, this]
        have : ((rmOf hashF st.meta.fileMetadata files).contains f.relPath) = false := by
          simp only [List.contains, List.elem_eq_mem]
          simpa using hnotrm
        rw [this]
        rfl
      · simp only [Bool.not_eq_true] at hb
        rw [hb]
        rfl

def chA : Chunk := { chunkW0 "A" with file_path := "a.py", chunk_id := "idA" }

def chB : Chunk := { chunkW0 "B" with file_path := "b.py", chunk_id := "idB" }

def stC2 : IndexState :=
  { vecs := [[Q.ofInt 7], [Q.ofInt 8]],
    meta :=
      { chunks := [chA.toDict, chB.toDict],
        fileMetadata := [("a.py", ⟨"x", 0, 1⟩), ("b.py", ⟨"z", 0, 1⟩)],
        numFiles := 2, numChunks := 2 } }

def filesC2 : List FileInput := [⟨"a.py", some "y", 0⟩, ⟨"b.py", some "z", 0⟩]

/-- Witness for C2: a two-file index in which only a.py changed; b.py's
row survives bit-for-bit. -/
theorem unchanged_file_rows_preserved_witness :
    ((updateIndexWithChunks embedW hashW parseW stC2 filesC2).meta.chunks.zip
      (updateIndexWithChunks embedW hashW parseW stC2 filesC2).vecs).filter
        (fun cv => cv.1.file_path == "b.py") =
      (stC2.meta.chunks.zip stC2.vecs).filter (fun cv => cv.1.file_path == "b.py") :=
  unchanged_file_rows_preserved embedW hashW parseW stC2 filesC2 "b.py"
    ⟨"b.py", some "z", 0⟩ "z" ⟨"z", 0, 1⟩ (by decide) (by decide) (by decide) rfl
    rfl (by decide) (by decide) rfl

theorem contains_eq_true_iff {l : List String} {x : String} :
    l.contains x = true ↔ x ∈ l := by
  simp [List.contains, List.elem_eq_mem]

theorem contains_eq_false_iff {l : List String} {x : String} :
    l.contains x = false ↔ x ∉ l := by
  rw [← Bool.not_eq_true, contains_eq_true_iff]

theorem mem_enum_of_mem {α : Type} {l : List α} {a : α} (h : a ∈ l) :
    ∃ i, (i, a) ∈ l.enum := by
  obtain ⟨i, hi, rfl⟩ := List.mem_iff_getElem.mp h
  refine ⟨i, ?_⟩
  have hl : i < l.enum.length := by simpa [List.enum_length] using hi
  have := List.getElem_mem hl
  rwa [List.getElem_enum] at this

/-! Claim C3: deletion handling. -/

def chC : Chunk := { chunkW0 "C" with file_path := "c.py", chunk_id := "idC" }

def stC3 : IndexState :=
  { vecs := [[Q.ofInt 5]],
    meta :=
      { chunks := [chC.toDict],
        fileMetadata := [("c.py", ⟨"w", 0, 1⟩)],
        numFiles := 1, numChunks := 1 } }

/-- Counterexample to C3 as stated.  Over an index whose only file is
c.py, deleting c.py from disk and running update hits the "No embeddings
to index" early return of _update_index_with_chunks (indexer.py lines
514-516): nothing is persisted, so the persisted index afterwards still
contains c.py's chunk and c.py's FileRecord, contradicting the claim
that every update removes them. -/
theorem deleted_file_chunks_linger :
    updateIndexWithChunks embedW hashW parseW stC3 [] = stC3 ∧
    stC3.meta.chunks.filter (fun ch => ch.file_path == "c.py") = [chC.toDict] ∧
    alookup "c.py" stC3.meta.fileMetadata = some ⟨"w", 0, 1⟩ := by decide

/-- C3 as amended.  If removing file C from disk still leaves the
rebuilt index non-empty (some unchanged file g still contributes at
least one chunk), then update_index persists an index with no chunk
whose file_path is C and no FileRecord for C.  (Without that proviso
the update returns before persisting and the old index, including C's
chunks and record, survives, as the counterexample shows.)
(indexer.py lines 434-444, 506-516, 525-537) -/
theorem deleted_file_purged (embed : String → Vec) (hashF : String → String)
    (parse : String → String → List Chunk) (st : IndexState)
    (files : List FileInput) (C : String) (rc : FileRec)
    (hnd : (files.map FileInput.relPath).Nodup)
    (hCdel : C ∉ files.map FileInput.relPath)
    (hCrec : alookup C st.meta.fileMetadata = some rc)
    (g : FileInput) (cg : String) (rg : FileRec) (chg : ChunkDict)
    (hg : g ∈ files) (hgc : g.content = some cg)
    (hgr : alookup g.relPath st.meta.fileMetadata = some rg)
    (hgh : hashF cg = rg.hash)
    (hchg : chg ∈ st.meta.chunks) (hchgp : chg.file_path = g.relPath) :
    (∀ ch ∈ (updateIndexWithChunks embed hashF parse st files).meta.chunks,
      ch.file_path ≠ C) ∧
    alookup C (updateIndexWithChunks embed hashF parse st files).meta.fileMetadata =
      none := by
  have hCdeleted : C ∈ deletedOf st.meta.fileMetadata files := by
    unfold deletedOf
    refine List.mem_map.mpr ⟨(C, rc), List.mem_filter.mpr ⟨alookup_mem hCrec, ?_⟩, rfl⟩
    simp only [Bool.not_eq_true']
    exact contains_eq_false_iff.mpr hCdel
  have hCrm : C ∈ rmOf hashF st.meta.fileMetadata files :=
    List.mem_append.mpr (Or.inl hCdeleted)
  have h1 : ((newFilesOf st.meta.fileMetadata files).isEmpty &&
      (changedFilesOf hashF st.meta.fileMetadata files).isEmpty &&
      (deletedOf st.meta.fileMetadata files).isEmpty) = false := by
    have : (deletedOf st.meta.fileMetadata files).isEmpty = false :=
      List.isEmpty_eq_false.mpr (List.ne_nil_of_mem hCdeleted)
    rw [this, Bool.and_false]
  have hgnotrm : g.relPath ∉ rmOf hashF st.meta.fileMetadata files :=
    unchanged_not_removed hnd hg hgc hgr hgh
  have hkept : ∃ pr, pr ∈ keptPairs st.meta.chunks
      (rmOf hashF st.meta.fileMetadata files) := by
    obtain ⟨i, hi⟩ := mem_enum_of_mem hchg
    refine ⟨(i, chg), List.mem_filter.mpr ⟨hi, ?_⟩⟩
    simp only [Bool.not_eq_true']
    rw [show (i, chg).2.file_path = chg.file_path from rfl, hchgp]
    exact contains_eq_false_iff.mpr hgnotrm
  have h2 : ((keptPairs st.meta.chunks (rmOf hashF st.meta.fileMetadata files)).isEmpty &&
      (newChunksOf hashF parse st.meta.fileMetadata files).isEmpty) = false := by
    obtain ⟨pr, hpr⟩ := hkept
    have : (keptPairs st.meta.chunks (rmOf hashF st.meta.fileMetadata files)).isEmpty =
        false := List.isEmpty_eq_false.mpr (List.ne_nil_of_mem hpr)
    rw [this, Bool.false_and]
  rw [update_eq_of_rebuild h1 h2]
  constructor
  · intro ch hch
    rw [rebuildState_chunks] at hch
    rcases List.mem_append.mp hch with hchk | hchn
    · obtain ⟨pr, hpr, rfl⟩ := List.mem_map.mp hchk
      have hprf := (List.mem_filter.mp hpr).2
      simp only [Bool.not_eq_true'] at hprf
      intro hpc
      rw [hpc] at hprf
      exact absurd (contains_eq_true_iff.mpr hCrm) (by rw [hprf]; simp)
    · obtain ⟨ch0, hch0, rfl⟩ := List.mem_map.mp hchn
      obtain ⟨g', hg', hgp'⟩ := mem_newChunksOf hch0
      have hg'files := mem_of_mem_newChanged hg'
      show ch0.toDict.file_path ≠ C
      rw [show ch0.toDict.file_path = ch0.file_path from rfl, hgp']
      intro hgC
      exact hCdel (List.mem_map.mpr ⟨g', hg'files, hgC⟩)
  · rw [rebuildState_fm, alookup_append]
    have hfil : alookup C (st.meta.fileMetadata.filter
        (fun kv => !(rmOf hashF st.meta.fileMetadata files).contains kv.1)) = none := by
      rw [alookup_eq_none_iff]
      intro kv hkv hkc
      have := (List.mem_filter.mp hkv).2
      rw [hkc] at this
      simp only [Bool.not_eq_true'] at this
      exact absurd (contains_eq_true_iff.mpr hCrm) (by rw [this]; simp)
    rw [hfil]
    rw [alookup_eq_none_iff]
    intro kv hkv
    obtain ⟨x, hx, rfl⟩ := List.mem_map.mp hkv
    obtain ⟨g', hg', hgx⟩ := mem_processedOf.mp hx
    have hg'files := mem_of_mem_newChanged hg'
    rw [(processFile_some_parts hgx).1]
    intro hgC
    exact hCdel (List.mem_map.mpr ⟨g', hg'files, hgC⟩)

def filesC3 : List FileInput := [⟨"b.py", some "z", 0⟩]

def stC3b : IndexState :=
  { vecs := [[Q.ofInt 5], [Q.ofInt 8]],
    meta :=
      { chunks := [chC.toDict, chB.toDict],
        fileMetadata := [("c.py", ⟨"w", 0, 1⟩), ("b.py", ⟨"z", 0, 1⟩)],
        numFiles := 2, numChunks := 2 } }

/-- Witness for the amended C3: deleting c.py while unchanged b.py keeps
a chunk purges every trace of c.py from the persisted index. -/
theorem deleted_file_purged_witness :
    (∀ ch ∈ (updateIndexWithChunks embedW hashW parseW stC3b filesC3).meta.chunks,
      ch.file_path ≠ "c.py") ∧
    alookup "c.py"
      (updateIndexWithChunks embedW hashW parseW stC3b filesC3).meta.fileMetadata =
      none :=
  deleted_file_purged embedW hashW parseW stC3b filesC3 "c.py" ⟨"w", 0, 1⟩
    (by decide) (by decide) (by decide) ⟨"b.py", some "z", 0⟩ "z" ⟨"z", 0, 1⟩
    chB.toDict (by decide) rfl (by decide) rfl (by decide) rfl

/-! Claim C9: behaviour on per-file read and parse failures. -/

theorem processFile_eq_some {hashF : String → String}
    {parse : String → String → List Chunk} {f : FileInput} {c : String}
    (hc : f.content = some c) (hce : c.isEmpty = false) :
    processFile hashF parse f =
      some (f.relPath, ⟨hashF c, f.mtime, c.length⟩,
        (parse f.relPath c).map (fun ch => { ch with file_path := f.relPath })) := by
  unfold processFile
  rw [hc]
  simp only [hce, Bool.false_eq_true, if_false]

theorem mem_newChunksOf' {hashF : String → String}
    {parse : String → String → List Chunk} {fm : List (String × FileRec)}
    {files : List FileInput} {ch : Chunk}
    (h : ch ∈ newChunksOf hashF parse fm files) :
    ∃ g ∈ newFilesOf fm files ++ changedFilesOf hashF fm files, ∃ c,
      g.content = some c ∧ ch.file_path = g.relPath ∧
      ch ∈ (parse g.relPath c).map (fun ch0 => { ch0 with file_path := g.relPath }) := by
  unfold newChunksOf at h
  obtain ⟨lst, hlst, hchl⟩ := List.mem_flatten.mp h
  obtain ⟨x, hx, rfl⟩ := List.mem_map.mp hlst
  obtain ⟨g, hg, hgx⟩ := mem_processedOf.mp hx
  obtain ⟨hk, c, hgc, hce, hrec, hchunks⟩ := processFile_some_parts hgx
  refine ⟨g, hg, c, hgc, processFile_chunk_path hgx ch hchl, ?_⟩
  rw [← hchunks]
  exact hchl

theorem processed_keys_sublist (hashF : String → String)
    (parse : String → String → List Chunk) (fs : List FileInput) :
    ((processedOf hashF parse fs).map Prod.fst).Sublist
      (fs.map FileInput.relPath) := by
  induction fs with
  | nil => simp [processedOf]
  | cons g fs ih =>
    unfold processedOf at ih ⊢
    rw [List.filterMap_cons, List.map_cons]
    cases hx : processFile hashF parse g with
    | none => exact ih.cons _
    | some x =>
      rw [List.map_cons, (processFile_some_parts hx).1]
      exact ih.cons₂ _

theorem newChanged_paths_nodup {hashF : String → String}
    {fm : List (String × FileRec)} {files : List FileInput}
    (hnd : (files.map FileInput.relPath).Nodup) :
    ((newFilesOf fm files ++ changedFilesOf hashF fm files).map
      FileInput.relPath).Nodup := by
  rw [List.map_append, List.nodup_append]
  refine ⟨((List.filter_sublist files).map FileInput.relPath).nodup hnd,
    ((List.filter_sublist files).map FileInput.relPath).nodup hnd, ?_⟩
  intro x hx1 hx2
  obtain ⟨g1, hg1, rfl⟩ := List.mem_map.mp hx1
  obtain ⟨g2, hg2, hg2p⟩ := List.mem_map.mp hx2
  have hg1f : g1 ∈ files := (List.mem_filter.mp hg1).1
  have hg2f : g2 ∈ files := (List.mem_filter.mp hg2).1
  have : g2 = g1 := List.inj_on_of_nodup_map hnd hg2f hg1f hg2p
  subst this
  have hnew := (List.mem_filter.mp hg1).2
  have hchg := (List.mem_filter.mp hg2).2
  rw [Option.isNone_iff_eq_none] at hnew
  rw [hnew] at hchg
  exact absurd hchg (by simp)

theorem newFm_keys_nodup {hashF : String → String}
    {parse : String → String → List Chunk} {fm : List (String × FileRec)}
    {files : List FileInput}
    (hnd : (files.map FileInput.relPath).Nodup) :
    ((newFmOf hashF parse fm files).map Prod.fst).Nodup := by
  unfold newFmOf
  rw [List.map_map]
  have : (Prod.fst ∘ fun p : String × FileRec × List Chunk => (p.1, p.2.1)) =
      (Prod.fst : String × FileRec × List Chunk → String) := rfl
  rw [this]
  exact (processed_keys_sublist hashF parse _).nodup (newChanged_paths_nodup hnd)

theorem mem_changedFilesOf {hashF : String → String}
    {fm : List (String × FileRec)} {files : List FileInput} {a : FileInput}
    {ca : String} {ra : FileRec} (ha : a ∈ files) (hac : a.content = some ca)
    (hace : ca.isEmpty = false) (har : alookup a.relPath fm = some ra)
    (hah : hashF ca ≠ ra.hash) : a ∈ changedFilesOf hashF fm files := by
  unfold changedFilesOf
  rw [List.mem_filter]
  refine ⟨ha, ?_⟩
  rw [har]
  simp only [hac, hace]
  simp [hah]

/-- Freshly recomputed FileRecord of a new/changed file with truthy
content ends up in the updated file_metadata (looked up past the
filtered old records, whose keys exclude removed paths). -/
theorem fresh_record_lookup {hashF : String → String}
    {parse : String → String → List Chunk} {fm : List (String × FileRec)}
    {files : List FileInput} {a : FileInput} {ca : String}
    (hnd : (files.map FileInput.relPath).Nodup)
    (hmem : a ∈ newFilesOf fm files ++ changedFilesOf hashF fm files)
    (hac : a.content = some ca) (hace : ca.isEmpty = false) :
    alookup a.relPath (newFmOf hashF parse fm files) =
      some ⟨hashF ca, a.mtime, ca.length⟩ := by
  apply alookup_of_mem_nodup (newFm_keys_nodup hnd)
  unfold newFmOf
  refine List.mem_map.mpr ⟨(a.relPath, ⟨hashF ca, a.mtime, ca.length⟩,
    (parse a.relPath ca).map (fun ch => { ch with file_path := a.relPath })), ?_, rfl⟩
  exact mem_processedOf.mpr ⟨a, hmem, processFile_eq_some hac hace⟩

/-- Parse function that fails (returns the empty chunk list, as
PythonParser.parse does on a SyntaxError) exactly on the content "(". -/
def parseFailW : String → String → List Chunk := fun _ c =>
  if c = "(" then [] else [chunkW0 c]

def filesC9 : List FileInput := [⟨"a.py", some "(", 0⟩, ⟨"b.py", some "z", 0⟩]

/-- Counterexample to C9 as stated.  Index over a.py (record hash "x")
and b.py; a.py's content changes to "(" which fails to parse.  After
update_index the persisted FileRecord of a.py is the fresh record with
the new hash "(" - not the untouched old record - and a.py's previously
indexed chunk is gone from the persisted chunk list, contradicting the
claim that the failing file's pre-existing FileRecord is left untouched
so its chunks are not silently deleted. -/
theorem parse_failure_drops_chunks :
    alookup "a.py"
      (updateIndexWithChunks embedW hashW parseFailW stC2 filesC9).meta.fileMetadata =
      some ⟨"(", 0, 1⟩ ∧
    alookup "a.py" stC2.meta.fileMetadata = some ⟨"x", 0, 1⟩ ∧
    (⟨"(", 0, 1⟩ : FileRec) ≠ ⟨"x", 0, 1⟩ ∧
    (updateIndexWithChunks embedW hashW parseFailW stC2 filesC9).meta.chunks.filter
        (fun ch => ch.file_path == "a.py") = [] ∧
    stC2.meta.chunks.filter (fun ch => ch.file_path == "a.py") = [chA.toDict] := by
  decide

/-- C9 as amended.  In an update where changed file a fails to parse
(parse returns the empty chunk list) while unchanged file g still
contributes a chunk: the run is not aborted and is persisted; the
failing file contributes zero chunks this pass, so no chunk with its
path remains; but its FileRecord is replaced by a fresh record carrying
the new content hash (not left untouched); a file whose read fails
(content none) is instead classified as Unchanged, so its FileRecord is
genuinely untouched; and the unchanged file's record survives.
(indexer.py lines 454-482; python_parsers.py lines 44-50) -/
theorem parse_failure_behaviour (embed : String → Vec) (hashF : String → String)
    (parse : String → String → List Chunk) (st : IndexState)
    (files : List FileInput) (a g : FileInput) (ca cg : String)
    (ra rg : FileRec) (chg : ChunkDict)
    (hnd : (files.map FileInput.relPath).Nodup)
    (ha : a ∈ files) (hac : a.content = some ca) (hace : ca.isEmpty = false)
    (har : alookup a.relPath st.meta.fileMetadata = some ra)
    (hah : hashF ca ≠ ra.hash) (hpa : parse a.relPath ca = [])
    (hg : g ∈ files) (hgc : g.content = some cg)
    (hgr : alookup g.relPath st.meta.fileMetadata = some rg)
    (hgh : hashF cg = rg.hash)
    (hchg : chg ∈ st.meta.chunks) (hchgp : chg.file_path = g.relPath) :
    (∀ ch ∈ (updateIndexWithChunks embed hashF parse st files).meta.chunks,
      ch.file_path ≠ a.relPath) ∧
    alookup a.relPath
      (updateIndexWithChunks embed hashF parse st files).meta.fileMetadata =
      some ⟨hashF ca, a.mtime, ca.length⟩ ∧
    (∀ (f : FileInput) (rf : FileRec), f ∈ files → f.content = none →
      alookup f.relPath st.meta.fileMetadata = some rf →
      alookup f.relPath
        (updateIndexWithChunks embed hashF parse st files).meta.fileMetadata =
        some rf) ∧
    alookup g.relPath
      (updateIndexWithChunks embed hashF parse st files).meta.fileMetadata =
      some rg := by
  have hachg : a ∈ changedFilesOf hashF st.meta.fileMetadata files :=
    mem_changedFilesOf ha hac hace har hah
  have harm : a.relPath ∈ rmOf hashF st.meta.fileMetadata files :=
    List.mem_append.mpr (Or.inr (List.mem_map.mpr ⟨a, hachg, rfl⟩))
  have h1 : ((newFilesOf st.meta.fileMetadata files).isEmpty &&
      (changedFilesOf hashF st.meta.fileMetadata files).isEmpty &&
      (deletedOf st.meta.fileMetadata files).isEmpty) = false := by
    have : (changedFilesOf hashF st.meta.fileMetadata files).isEmpty = false :=
      List.isEmpty_eq_false.mpr (List.ne_nil_of_mem hachg)
    rw [this, Bool.and_false, Bool.false_and]
  have hgnotrm : g.relPath ∉ rmOf hashF st.meta.fileMetadata files :=
    unchanged_not_removed hnd hg hgc hgr hgh
  have h2 : ((keptPairs st.meta.chunks (rmOf hashF st.meta.fileMetadata files)).isEmpty &&
      (newChunksOf hashF parse st.meta.fileMetadata files).isEmpty) = false := by
    obtain ⟨i, hi⟩ := mem_enum_of_mem hchg
    have hkp : (i, chg) ∈ keptPairs st.meta.chunks
        (rmOf hashF st.meta.fileMetadata files) := by
      refine List.mem_filter.mpr ⟨hi, ?_⟩
      simp only [Bool.not_eq_true']
      rw [show (i, chg).2.file_path = chg.file_path from rfl, hchgp]
      exact contains_eq_false_iff.mpr hgnotrm
    have : (keptPairs st.meta.chunks (rmOf hashF st.meta.fileMetadata files)).isEmpty =
        false := List.isEmpty_eq_false.mpr (List.ne_nil_of_mem hkp)
    rw [this, Bool.false_and]
  rw [update_eq_of_rebuild h1 h2]
  have hkeepg : ∀ kv ∈ st.meta.fileMetadata, kv.1 = g.relPath →
      (!(rmOf hashF st.meta.fileMetadata files).contains kv.1) = true := by
    intro kv _ hkv
    rw [hkv]
    simp only [Bool.not_eq_true']
    exact contains_eq_false_iff.mpr hgnotrm
  refine ⟨?_, ?_, ?_, ?_⟩
  · intro ch hch
    rw [rebuildState_chunks] at hch
    rcases List.mem_append.mp hch with hchk | hchn
    · obtain ⟨pr, hpr, rfl⟩ := List.mem_map.mp hchk
      have hprf := (List.mem_filter.mp hpr).2
      simp only [Bool.not_eq_true'] at hprf
      intro hpc
      rw [hpc] at hprf
      exact absurd (contains_eq_true_iff.mpr harm) (by rw [hprf]; simp)
    · obtain ⟨ch0, hch0, rfl⟩ := List.mem_map.mp hchn
      obtain ⟨g', hg', c', hgc', hgp', hchmem⟩ := mem_newChunksOf' hch0
      have hg'files := mem_of_mem_newChanged hg'
      show ch0.toDict.file_path ≠ a.relPath
      rw [show ch0.toDict.file_path = ch0.file_path from rfl, hgp']
      intro hgC
      have : g' = a := List.inj_on_of_nodup_map hnd hg'files ha hgC
      subst this
      rw [hac] at hgc'
      obtain rfl : ca = c' := by injection hgc'
      rw [hpa] at hchmem
      exact absurd hchmem (by simp)
  · rw [rebuildState_fm, alookup_append]
    have hfilnone : alookup a.relPath (st.meta.fileMetadata.filter
        (fun kv => !(rmOf hashF st.meta.fileMetadata files).contains kv.1)) = none := by
      rw [alookup_eq_none_iff]
      intro kv hkv hka
      have := (List.mem_filter.mp hkv).2
      rw [hka] at this
      simp only [Bool.not_eq_true'] at this
      exact absurd (contains_eq_true_iff.mpr harm) (by rw [this]; simp)
    rw [hfilnone]
    exact fresh_record_lookup hnd (List.mem_append.mpr (Or.inr hachg)) hac hace
  · intro f rf hf hfc hfr
    have hfnotrm : f.relPath ∉ rmOf hashF st.meta.fileMetadata files := by
      intro hmem
      rcases List.mem_append.mp hmem with hdel | hchgm
      · unfold deletedOf at hdel
        obtain ⟨kv, hkv, hkvp⟩ := List.mem_map.mp hdel
        have hnc := (List.mem_filter.mp hkv).2
        rw [hkvp] at hnc
        have : f.relPath ∈ files.map FileInput.relPath :=
          List.mem_map.mpr ⟨f, hf, rfl⟩
        simp [List.contains, List.elem_eq_mem, this] at hnc
      · obtain ⟨g'', hg'', hgp''⟩ := List.mem_map.mp hchgm
        have hg''files : g'' ∈ files := (List.mem_filter.mp hg'').1
        have : g'' = f := List.inj_on_of_nodup_map hnd hg''files hf hgp''
        subst this
        have hpred := (List.mem_filter.mp hg'').2
        rw [hfr] at hpred
        simp only [hfc] at hpred
        exact absurd hpred (by simp)
    rw [rebuildState_fm, alookup_append]
    have : alookup f.relPath (st.meta.fileMetadata.filter
        (fun kv => !(rmOf hashF st.meta.fileMetadata files).contains kv.1)) =
        alookup f.relPath st.meta.fileMetadata := by
      apply alookup_filter_eq_of_keep
      intro kv _ hkv
      rw [hkv]
      simp only [Bool.not_eq_true']
      exact contains_eq_false_iff.mpr hfnotrm
    rw [this, hfr]
  · rw [rebuildState_fm, alookup_append]
    have : alookup g.relPath (st.meta.fileMetadata.filter
        (fun kv => !(rmOf hashF st.meta.fileMetadata files).contains kv.1)) =
        alookup g.relPath st.meta.fileMetadata :=
      alookup_filter_eq_of_keep hkeepg
    rw [this, hgr]

/-- Witness for the amended C9 at the concrete two-file scenario. -/
theorem parse_failure_behaviour_witness :
    (∀ ch ∈ (updateIndexWithChunks embedW hashW parseFailW stC2 filesC9).meta.chunks,
      ch.file_path ≠ "a.py") ∧
    alookup "a.py"
      (updateIndexWithChunks embedW hashW parseFailW stC2 filesC9).meta.fileMetadata =
      some ⟨"(", 0, 1⟩ ∧
    (∀ (f : FileInput) (rf : FileRec), f ∈ filesC9 → f.content = none →
      alookup f.relPath stC2.meta.fileMetadata = some rf →
      alookup f.relPath
        (updateIndexWithChunks embedW hashW parseFailW stC2 filesC9).meta.fileMetadata =
        some rf) ∧
    alookup "b.py"
      (updateIndexWithChunks embedW hashW parseFailW stC2 filesC9).meta.fileMetadata =
      some ⟨"z", 0, 1⟩ :=
  parse_failure_behaviour embedW hashW parseFailW stC2 filesC9
    ⟨"a.py", some "(", 0⟩ ⟨"b.py", some "z", 0⟩ "(" "z" ⟨"x", 0, 1⟩ ⟨"z", 0, 1⟩
    chB.toDict (by decide) (by decide) rfl (by decide) (by decide) (by decide)
    (by decide) (by decide) rfl (by decide) rfl (by decide) rfl

/-! Lemmas about the searcher result loop, sorting and ranking. -/

/-- A result with its score and rank erased, for stating which chunks a
search returned irrespective of ordering data. -/
def stripSR (r : SearchResult) : SearchResult :=
  { r with score := Q.ofInt 0, rank := 0 }

theorem mem_getD_of_lt {chunks : List ChunkDict} {idx : ℕ}
    (h : idx < chunks.length) : chunks.getD idx default ∈ chunks := by
  rw [List.getD_eq_getElem _ _ h]
  exact List.getElem_mem h

theorem collect_none_all {chunks : List ChunkDict} {topK : Int} :
    ∀ (cnt : ℕ) (cands : List (Q × ℕ)),
    (∀ p ∈ cands, p.2 < chunks.length) →
    ((cnt : Int) + cands.length < topK) →
    collectChunkResults chunks none none topK cnt cands =
      .ok (cands.map (fun p => mkResult (chunks.getD p.2 default) p.1)) := by
  intro cnt cands
  induction cands generalizing cnt with
  | nil => intro _ _; rfl
  | cons hd rest ih =>
    intro hlt hcnt
    obtain ⟨d, idx⟩ := hd
    have hidx : idx < chunks.length := hlt (d, idx) (List.mem_cons_self _ _)
    have hnobreak : ¬((cnt + 1 : Int) ≥ topK) := by
      push_neg
      have : ((cnt : Int) + (1 + rest.length)) < topK := by
        simpa [List.length_cons, Nat.cast_add, add_comm] using hcnt
      omega
    have hrest : ((cnt + 1 : ℕ) : Int) + rest.length < topK := by
      push_neg at hnobreak
      have : ((cnt : Int) + (1 + rest.length)) < topK := by
        simpa [List.length_cons, Nat.cast_add, add_comm] using hcnt
      push_cast
      omega
    have ihr := ih (cnt + 1) (fun p hp => hlt p (List.mem_cons_of_mem _ hp)) hrest
    unfold collectChunkResults
    rw [if_pos hidx]
    simp only [ihr, hnobreak, if_neg, List.map_cons]
    rfl

theorem collect_detected_sound {chunks : List ChunkDict} {fl : String}
    {topK : Int} :
    ∀ (cnt : ℕ) (cands : List (Q × ℕ)) (rs : List SearchResult),
    collectChunkResults chunks (some fl) (some fl) topK cnt cands = .ok rs →
    ∀ r ∈ rs, ∃ ci ∈ chunks, matchesFilter ci fl = some true ∧
      ∃ d, (∃ i, (d, i) ∈ cands) ∧ r = mkResult ci (Q.mul d ⟨4, 4⟩) := by
  intro cnt cands
  induction cands generalizing cnt with
  | nil =>
    intro rs h r hr
    unfold collectChunkResults at h
    obtain rfl : ([] : List SearchResult) = rs := by injection h
    simp at hr
  | cons hd rest ih =>
    intro rs h r hr
    obtain ⟨d, idx⟩ := hd
    unfold collectChunkResults at h
    by_cases hidx : idx < chunks.length
    · rw [if_pos hidx] at h
      rcases hm : matchesFilter (chunks.getD idx default) fl with _ | b
      · simp only [hm] at h
        exact absurd h (by simp)
      · cases b with
        | false =>
          simp only [hm, Bool.not_false] at h
          obtain ⟨ci, hci, hmt, dd, ⟨i, hi⟩, hrr⟩ := ih cnt rs h r hr
          exact ⟨ci, hci, hmt, dd, ⟨i, List.mem_cons_of_mem _ hi⟩, hrr⟩
        | true =>
          simp only [hm, Bool.not_true] at h
          by_cases hbreak : ((cnt : Int) + 1 ≥ topK)
          · rw [if_pos hbreak] at h
            obtain rfl : [mkResult (chunks.getD idx default) (Q.mul d ⟨4, 4⟩)] = rs := by
              injection h
            obtain rfl : r = mkResult (chunks.getD idx default) (Q.mul d ⟨4, 4⟩) := by
              simpa using hr
            exact ⟨chunks.getD idx default, mem_getD_of_lt hidx, hm, d,
              ⟨idx, List.mem_cons_self _ _⟩, rfl⟩
          · rw [if_neg hbreak] at h
            rcases hrec : collectChunkResults chunks (some fl) (some fl) topK
                (cnt + 1) rest with e | rs'
            · rw [hrec] at h
              exact absurd h (by simp)
            · rw [hrec] at h
              obtain rfl : mkResult (chunks.getD idx default) (Q.mul d ⟨4, 4⟩) :: rs' =
                  rs := by injection h
              rcases List.mem_cons.mp hr with hreq | hrtail
              · exact ⟨chunks.getD idx default, mem_getD_of_lt hidx, hm, d,
                  ⟨idx, List.mem_cons_self _ _⟩, hreq⟩
              · obtain ⟨ci, hci, hmt, dd, ⟨i, hi⟩, hrr⟩ :=
                  ih (cnt + 1) rs' hrec r hrtail
                exact ⟨ci, hci, hmt, dd, ⟨i, List.mem_cons_of_mem _ hi⟩, hrr⟩
    · rw [if_neg hidx] at h
      obtain ⟨ci, hci, hmt, dd, ⟨i, hi⟩, hrr⟩ := ih cnt rs h r hr
      exact ⟨ci, hci, hmt, dd, ⟨i, List.mem_cons_of_mem _ hi⟩, hrr⟩

theorem map_score_assignRanks (l : List SearchResult) :
    (assignRanks l).map SearchResult.score = l.map SearchResult.score := by
  unfold assignRanks
  rw [List.map_map]
  rw [show (SearchResult.score ∘ fun p : ℕ × SearchResult =>
      { p.2 with rank := p.1 + 1 }) = (SearchResult.score ∘ Prod.snd) from rfl]
  rw [← List.map_map, List.enum_map_snd]

theorem map_stripSR_assignRanks (l : List SearchResult) :
    (assignRanks l).map stripSR = l.map stripSR := by
  unfold assignRanks
  rw [List.map_map]
  rw [show (stripSR ∘ fun p : ℕ × SearchResult =>
      { p.2 with rank := p.1 + 1 }) = (stripSR ∘ Prod.snd) from rfl]
  rw [← List.map_map, List.enum_map_snd]

theorem assignRanks_ranks (l : List SearchResult) :
    (assignRanks l).map SearchResult.rank = (List.range l.length).map (· + 1) := by
  unfold assignRanks
  rw [List.map_map]
  rw [show (SearchResult.rank ∘ fun p : ℕ × SearchResult =>
      { p.2 with rank := p.1 + 1 }) = ((· + 1) ∘ Prod.fst) from rfl]
  rw [← List.map_map, List.enum_map_fst]

theorem length_assignRanks (l : List SearchResult) :
    (assignRanks l).length = l.length := by
  unfold assignRanks
  rw [List.length_map, List.enum_length]

theorem mem_assignRanks {l : List SearchResult} {r : SearchResult}
    (h : r ∈ assignRanks l) : ∃ r0 ∈ l, ∃ i, r = { r0 with rank := i } := by
  unfold assignRanks at h
  obtain ⟨⟨i, r0⟩, hp, rfl⟩ := List.mem_map.mp h
  obtain ⟨hlt, h2⟩ := List.mem_enum hp
  refine ⟨r0, ?_, i + 1, rfl⟩
  rw [h2]
  exact List.getElem_mem hlt

theorem sorted_sortByScore (rs : List SearchResult) :
    List.Sorted scoreLE (sortByScore rs) :=
  List.sorted_insertionSort scoreLE rs

theorem sorted_result_scores (rs : List SearchResult) :
    List.Sorted Q.le ((assignRanks (sortByScore rs)).map SearchResult.score) := by
  rw [map_score_assignRanks]
  rw [List.Sorted, List.pairwise_map]
  exact sorted_sortByScore rs

theorem searchChunks_eq_of_valid {embed : String → Vec} {store : List Vec}
    {chunks : List ChunkDict} {q : String} {topK : Int} {ft : Option String}
    (hq : ¬(strStrip q = "")) (hk : ¬(topK ≤ 0)) (hst : ¬(store.length = 0)) :
    searchChunks embed store chunks q topK ft =
      match collectChunkResults chunks
          (if pyFalsy ft then (if pyFalsy ft then analyzeQueryIntent q else none) else ft)
          (if pyFalsy ft then analyzeQueryIntent q else none) topK 0
          (faissSearchL2 store (embed q)
            (min (if ((if pyFalsy ft then (if pyFalsy ft then analyzeQueryIntent q else none) else ft)).isSome
              then topK * 10 else topK) (store.length : Int)).toNat) with
      | .error e => .error e
      | .ok rs => .ok (assignRanks (sortByScore rs)) := by
  unfold searchChunks
  rw [if_neg hq, if_neg hk, if_neg hst]

/-- C7 as amended.  When the query auto-detects filter fl (no explicit
filter), every returned result comes from a chunk that matches fl
according to _matches_filter, and its score is a candidate FAISS
distance multiplied by 0.8 (the boost applies to every returned result,
since acceptance and boosting test the same detected filter); the final
results are sorted ascending by boosted score.  Chunks that do not match
the filter are excluded from the results entirely, so boosting never
re-orders a matching chunk against a non-matching one: the non-matching
chunk does not appear (see the counterexample for the re-rank scenario
the original claim asserts).  (searcher.py lines 139-177, 238-285) -/
theorem filtered_boosted_search (embed : String → Vec) (store : List Vec)
    (chunks : List ChunkDict) (q : String) (topK : Int)
    (results : List SearchResult) (fl : String)
    (hok : searchChunks embed store chunks q topK none = .ok results)
    (hdet : analyzeQueryIntent q = some fl) :
    (∀ r ∈ results, ∃ ci ∈ chunks, matchesFilter ci fl = some true ∧
      ∃ d i, (∃ j, (d, j) ∈ faissSearchL2 store (embed q)
          (min (topK * 10) (store.length : Int)).toNat) ∧
        r = { mkResult ci (Q.mul d ⟨4, 4⟩) with rank := i }) ∧
    List.Sorted Q.le (results.map SearchResult.score) := by
  by_cases hq : strStrip q = ""
  · unfold searchChunks at hok
    rw [if_pos hq] at hok
    exact absurd hok (by simp)
  by_cases hk : topK ≤ 0
  · unfold searchChunks at hok
    rw [if_neg hq, if_pos hk] at hok
    exact absurd hok (by simp)
  by_cases hst : store.length = 0
  · unfold searchChunks at hok
    rw [if_neg hq, if_neg hk, if_pos hst] at hok
    obtain rfl : ([] : List SearchResult) = results := by injection hok
    exact ⟨fun r hr => absurd hr (by simp), by simp [List.Sorted]⟩
  rw [searchChunks_eq_of_valid hq hk hst] at hok
  simp only [pyFalsy, hdet, Option.isSome_some, if_true] at hok
  rcases hcol : collectChunkResults chunks (some fl) (some fl) topK 0
      (faissSearchL2 store (embed q)
        (min (topK * 10) (store.length : Int)).toNat) with e | rs
  · rw [hcol] at hok
    exact absurd hok (by simp)
  · rw [hcol] at hok
    obtain rfl : assignRanks (sortByScore rs) = results := by injection hok
    constructor
    · intro r hr
      obtain ⟨r0, hr0sort, i, rfl⟩ := mem_assignRanks hr
      have hr0 : r0 ∈ rs :=
        (List.perm_insertionSort scoreLE rs).mem_iff.mp hr0sort
      obtain ⟨ci, hci, hmt, d, ⟨j, hj⟩, rfl⟩ :=
        collect_detected_sound 0 _ rs hcol r0 hr0
      exact ⟨ci, hci, hmt, d, i, ⟨j, hj⟩, rfl⟩
    · exact sorted_result_scores rs

deriving instance DecidableEq for Except

def cFunW : ChunkDict :=
  { chunk_id := "id1", file_path := "utils.py", ctype := "function",
    name := "helper", start_line := 1, end_line := 3,
    signature := "def helper():", docstring := none, parent := none,
    imports := [], framework_type := none, decorators := [],
    base_classes := [], http_method := none, route_path := none,
    model_fields := [] }

def cModelW : ChunkDict :=
  { chunk_id := "id2", file_path := "models.py", ctype := "class",
    name := "User", start_line := 1, end_line := 9,
    signature := "class User(models.Model):", docstring := none,
    parent := none, imports := [], framework_type := some "django_model",
    decorators := [], base_classes := ["models.Model"], http_method := none,
    route_path := none, model_fields := ["name"] }

/-- Query embedding used by the searcher examples: the origin, so the
stored vectors' squared norms are the distances. -/
def embed2W : String → Vec := fun _ => [Q.ofInt 0, Q.ofInt 0]

/-- Two stored rows: row 0 (the function chunk) at squared distance 9,
row 1 (the model chunk) at squared distance 10. -/
def store2W : List Vec := [[Q.ofInt 3, Q.ofInt 0], [Q.ofInt 1, Q.ofInt 3]]

/-- Counterexample to C7 as stated.  Query "model" auto-detects the
"model" filter; the non-model chunk (utils.py, raw distance 9) is
strictly closer than the model chunk (models.py, raw distance 10), and
the boosted model score 10 x 0.8 = 8 undercuts 9, so the claim's
re-ranking scenario demands both results with the model match ranked
first.  The code instead returns only the model chunk: the non-model
match is filtered out entirely and is never ranked at all. -/
theorem boosted_rerank_counterexample :
    searchChunks embed2W store2W [cFunW, cModelW] "model" 2 none =
      .ok [{ mkResult cModelW ⟨40, 4⟩ with rank := 1 }] ∧
    Q.le (Q.mul (Q.ofInt 10) ⟨4, 4⟩) (Q.ofInt 9) ∧
    ¬Q.le (Q.ofInt 10) (Q.ofInt 9) ∧
    (∀ r ∈ [{ mkResult cModelW ⟨40, 4⟩ with rank := 1 }],
      r.file_path ≠ "utils.py") := by
  decide

/-- Witness for the amended C7 at the concrete model/function store. -/
theorem filtered_boosted_search_witness :
    (∀ r ∈ [{ mkResult cModelW ⟨40, 4⟩ with rank := 1 }],
      ∃ ci ∈ [cFunW, cModelW], matchesFilter ci "model" = some true ∧
      ∃ d i, (∃ j, (d, j) ∈ faissSearchL2 store2W (embed2W "model")
          (min ((2 : Int) * 10) ((store2W.length : Nat) : Int)).toNat) ∧
        r = { mkResult ci (Q.mul d ⟨4, 4⟩) with rank := i }) ∧
    List.Sorted Q.le
      (([{ mkResult cModelW ⟨40, 4⟩ with rank := 1 }]).map SearchResult.score) :=
  filtered_boosted_search embed2W store2W [cFunW, cModelW] "model" 2
    [{ mkResult cModelW ⟨40, 4⟩ with rank := 1 }] "model" (by decide) (by decide)

theorem faiss_full_length (store : List Vec) (q : Vec) {k : ℕ}
    (hk : store.length ≤ k) : (faissSearchL2 store q k).length = store.length := by
  unfold faissSearchL2
  rw [List.take_of_length_le, List.length_insertionSort, List.length_map,
    List.enum_length]
  rw [List.length_insertionSort, List.length_map, List.enum_length]
  exact hk

theorem faiss_full_perm (store : List Vec) (q : Vec) (k : ℕ)
    (hk : store.length ≤ k) :
    ((faissSearchL2 store q k).map Prod.snd).Perm (List.range store.length) := by
  unfold faissSearchL2
  rw [List.take_of_length_le
    (by rw [List.length_insertionSort, List.length_map, List.enum_length]; exact hk)]
  have hperm := (List.perm_insertionSort distLE
    (store.enum.map (fun p => (l2sq q p.2, p.1)))).map Prod.snd
  have heq : (store.enum.map (fun p => (l2sq q p.2, p.1))).map Prod.snd =
      List.range store.length := by
    rw [List.map_map]
    rw [show (Prod.snd ∘ fun p : ℕ × Vec => (l2sq q p.2, p.1)) =
      (Prod.fst : ℕ × Vec → ℕ) from rfl]
    exact List.enum_map_fst store
  rw [heq] at hperm
  exact hperm

theorem range_map_getD {α β : Type} [Inhabited α] (l : List α) (f : α → β) :
    (List.range l.length).map (fun i => f (l.getD i default)) = l.map f := by
  apply List.ext_getElem
  · simp
  · intro n h1 h2
    have hn : n < l.length := by simpa using h2
    simp only [List.getElem_map, List.getElem_range]
    rw [List.getD_eq_getElem _ _ hn]

/-- Counterexample to C8 as stated.  The single indexed chunk is a plain
function; the query "model" is non-empty and top_k = 2 exceeds the one
indexed chunk, yet search returns no results at all instead of all
chunks: intent detection activates the "model" filter and the only chunk
fails it.  (searcher.py lines 114-116, 139-177) -/
theorem topk_all_chunks_counterexample :
    searchChunks embed2W [[Q.ofInt 3, Q.ofInt 0]] [cFunW] "model" 2 none =
      .ok [] ∧
    [cFunW] ≠ [] ∧ strStrip "model" ≠ "" := by decide

/-- C8 as amended.  For a non-empty query on which intent detection
finds no group (so no filter is active), every top_k strictly greater
than the number of indexed chunks returns exactly all indexed chunks:
one result per chunk (same multiset, compared with score and rank
erased), ranked 1..n, sorted ascending by distance, with no error.
(searcher.py lines 121-127, 139-177) -/
theorem topk_exceeding_returns_all (embed : String → Vec) (store : List Vec)
    (chunks : List ChunkDict) (q : String) (topK : Int)
    (hq : ¬(strStrip q = "")) (hint : analyzeQueryIntent q = none)
    (hlen : store.length = chunks.length)
    (hk : (chunks.length : Int) < topK) :
    ∃ results, searchChunks embed store chunks q topK none = .ok results ∧
      results.length = chunks.length ∧
      (results.map stripSR).Perm (chunks.map (fun c => mkResult c (Q.ofInt 0))) ∧
      results.map SearchResult.rank = (List.range chunks.length).map (· + 1) ∧
      List.Sorted Q.le (results.map SearchResult.score) := by
  have hk0 : ¬(topK ≤ 0) := by
    have := Int.natCast_nonneg chunks.length
    omega
  by_cases hst : store.length = 0
  · have hchn : chunks = [] := by
      rw [hlen] at hst
      exact List.length_eq_zero.mp hst
    refine ⟨[], ?_, by simp [hchn], by simp [hchn], by simp [hchn], by simp [List.Sorted]⟩
    unfold searchChunks
    rw [if_neg hq, if_neg hk0, if_pos hst]
  · rw [searchChunks_eq_of_valid hq hk0 hst]
    simp only [pyFalsy, hint, if_true, Option.isSome_none, Bool.false_eq_true,
      if_false]
    have hmin : min topK (store.length : Int) = (store.length : Int) := by
      rw [hlen]
      exact min_eq_right hk.le
    rw [hmin, Int.toNat_natCast]
    have hcands_lt : ∀ p ∈ faissSearchL2 store (embed q) store.length,
        p.2 < chunks.length := by
      intro p hp
      rw [← hlen]
      exact faiss_indices_lt store (embed q) store.length p hp
    have hcands_len : (faissSearchL2 store (embed q) store.length).length =
        store.length := faiss_full_length store (embed q) le_rfl
    have hbound : ((0 : ℕ) : Int) +
        (faissSearchL2 store (embed q) store.length).length < topK := by
      rw [hcands_len, hlen]
      simpa using hk
    rw [collect_none_all 0 _ hcands_lt hbound]
    refine ⟨assignRanks (sortByScore ((faissSearchL2 store (embed q)
      store.length).map (fun p => mkResult (chunks.getD p.2 default) p.1))), rfl,
      ?_, ?_, ?_, ?_⟩
    · rw [length_assignRanks]
      unfold sortByScore
      rw [List.length_insertionSort, List.length_map, hcands_len, hlen]
    · rw [map_stripSR_assignRanks]
      have hsortperm := ((List.perm_insertionSort scoreLE
        ((faissSearchL2 store (embed q) store.length).map
          (fun p => mkResult (chunks.getD p.2 default) p.1))).map stripSR)
      refine hsortperm.trans ?_
      rw [List.map_map]
      rw [show (stripSR ∘ fun p : Q × ℕ => mkResult (chunks.getD p.2 default) p.1) =
        ((fun i => mkResult (chunks.getD i default) (Q.ofInt 0)) ∘ Prod.snd) from rfl]
      rw [← List.map_map]
      have := (faiss_full_perm store (embed q) store.length le_rfl).map
        (fun i => mkResult (chunks.getD i default) (Q.ofInt 0))
      refine this.trans ?_
      rw [hlen, range_map_getD chunks (fun c => mkResult c (Q.ofInt 0))]
    · rw [assignRanks_ranks]
      unfold sortByScore
      rw [List.length_insertionSort, List.length_map, hcands_len, hlen]
    · exact sorted_result_scores _

/-- Witness for the amended C8: an unfiltered query over one chunk with
top_k = 2 returns exactly that chunk, ranked. -/
theorem topk_exceeding_returns_all_witness :
    ∃ results,
      searchChunks embed2W [[Q.ofInt 3, Q.ofInt 0]] [cFunW] "zzz" 2 none =
        .ok results ∧
      results.length = ([cFunW] : List ChunkDict).length ∧
      (results.map stripSR).Perm
        (([cFunW] : List ChunkDict).map (fun c => mkResult c (Q.ofInt 0))) ∧
      results.map SearchResult.rank =
        (List.range ([cFunW] : List ChunkDict).length).map (· + 1) ∧
      List.Sorted Q.le (results.map SearchResult.score) :=
  topk_exceeding_returns_all embed2W [[Q.ofInt 3, Q.ofInt 0]] [cFunW] "zzz" 2
    (by decide) (by decide) rfl (by decide)

/-! Helper lemmas for the idempotence of update (C4). -/

theorem indexState_ext {a b : IndexState} (hv : a.vecs = b.vecs)
    (hc : a.meta.chunks = b.meta.chunks)
    (hfm : a.meta.fileMetadata = b.meta.fileMetadata)
    (hnf : a.meta.numFiles = b.meta.numFiles)
    (hnc : a.meta.numChunks = b.meta.numChunks) : a = b := by
  obtain ⟨av, ⟨ac, afm, anf, anc⟩⟩ := a
  obtain ⟨bv, ⟨bc, bfm, bnf, bnc⟩⟩ := b
  simp only at hv hc hfm hnf hnc
  simp [hv, hc, hfm, hnf, hnc]

theorem keptPairs_nil_rm (chunks : List ChunkDict) :
    keptPairs chunks [] = chunks.enum := by
  unfold keptPairs
  exact List.filter_eq_self.mpr (fun a _ => rfl)

theorem range_map_getD_vec (v : List Vec) :
    (List.range v.length).map (fun i => v.getD i []) = v := by
  apply List.ext_getElem
  · simp
  · intro n h1 h2
    simp only [List.getElem_map, List.getElem_range]
    rw [List.getD_eq_getElem _ _ h2]

theorem rebuildState_length_eq (embed : String → Vec) (hashF : String → String)
    (parse : String → String → List Chunk) (st : IndexState)
    (files : List FileInput) :
    (rebuildState embed hashF parse st files).vecs.length =
      (rebuildState embed hashF parse st files).meta.chunks.length := by
  rw [rebuildState_chunks, rebuildState_vecs]
  simp [List.length_append, List.length_map]

/-- Every key of the file metadata produced by the rebuild branch is a
path of the current snapshot. -/
theorem rebuild_fm_keys_current (embed : String → Vec) (hashF : String → String)
    (parse : String → String → List Chunk) (st : IndexState)
    (files : List FileInput) :
    ∀ kv ∈ (rebuildState embed hashF parse st files).meta.fileMetadata,
      kv.1 ∈ files.map FileInput.relPath := by
  intro kv hkv
  rw [rebuildState_fm] at hkv
  rcases List.mem_append.mp hkv with hold | hnew
  · have hmem := (List.mem_filter.mp hold).1
    have hpred := (List.mem_filter.mp hold).2
    by_contra habs
    have hdel : kv.1 ∈ deletedOf st.meta.fileMetadata files := by
      unfold deletedOf
      refine List.mem_map.mpr ⟨kv, List.mem_filter.mpr ⟨hmem, ?_⟩, rfl⟩
      simp only [Bool.not_eq_true']
      exact contains_eq_false_iff.mpr habs
    have hrm : kv.1 ∈ rmOf hashF st.meta.fileMetadata files :=
      List.mem_append.mpr (Or.inl hdel)
    simp only [Bool.not_eq_true'] at hpred
    exact absurd (contains_eq_true_iff.mpr hrm) (by rw [hpred]; simp)
  · obtain ⟨x, hx, rfl⟩ := List.mem_map.mp hnew
    obtain ⟨g, hg, hgx⟩ := mem_processedOf.mp hx
    rw [(processFile_some_parts hgx).1]
    exact List.mem_map.mpr ⟨g, mem_of_mem_newChanged hg, rfl⟩

/-- Looking up a current file's path in the rebuilt file metadata: the
record carries the hash of the file's current content whenever the file
is truthy, and the file is registered whenever truthy. -/
theorem rebuild_fm_lookup_hash (embed : String → Vec) (hashF : String → String)
    (parse : String → String → List Chunk) (st : IndexState)
    (files : List FileInput) (f : FileInput) (r : FileRec) (c : String)
    (hnd : (files.map FileInput.relPath).Nodup)
    (hndfm : (st.meta.fileMetadata.map Prod.fst).Nodup)
    (hf : f ∈ files) (hc : f.content = some c)
    (hlk : alookup f.relPath
      (rebuildState embed hashF parse st files).meta.fileMetadata = some r) :
    c.isEmpty = true ∨ hashF c = r.hash := by
  rw [rebuildState_fm, alookup_append] at hlk
  rcases hfil : alookup f.relPath (st.meta.fileMetadata.filter
      (fun kv => !(rmOf hashF st.meta.fileMetadata files).contains kv.1)) with _ | r0
  · rw [hfil] at hlk
    simp only at hlk
    have hmem := alookup_mem hlk
    obtain ⟨x, hx, hxeq⟩ := List.mem_map.mp hmem
    obtain ⟨g, hg, hgx⟩ := mem_processedOf.mp hx
    obtain ⟨hk, cg, hgc, hce, hrec, -⟩ := processFile_some_parts hgx
    have hkey : g.relPath = f.relPath := by
      rw [← hk]
      exact congrArg Prod.fst hxeq
    have hgeq : g = f :=
      List.inj_on_of_nodup_map hnd (mem_of_mem_newChanged hg) hf hkey
    subst hgeq
    rw [hc] at hgc
    obtain rfl : c = cg := by injection hgc
    right
    have hr : x.2.1 = r := congrArg Prod.snd hxeq
    rw [← hr, hrec]
  · rw [hfil] at hlk
    simp only at hlk
    obtain rfl : r0 = r := by injection hlk
    obtain ⟨hlkfm, hkeep⟩ := alookup_filter_some_nodup hndfm hfil
    simp only [Bool.not_eq_true'] at hkeep
    by_cases hce : c.isEmpty = true
    · exact Or.inl hce
    · right
      by_contra hne
      have hchg : f ∈ changedFilesOf hashF st.meta.fileMetadata files :=
        mem_changedFilesOf hf hc (by simpa using hce) hlkfm hne
      have : f.relPath ∈ rmOf hashF st.meta.fileMetadata files :=
        List.mem_append.mpr (Or.inr (List.mem_map.mpr ⟨f, hchg, rfl⟩))
      exact absurd (contains_eq_true_iff.mpr this) (by rw [hkeep]; simp)

/-- A current file whose path is absent from the rebuilt file metadata
cannot have truthy content. -/
theorem rebuild_fm_lookup_none (embed : String → Vec) (hashF : String → String)
    (parse : String → String → List Chunk) (st : IndexState)
    (files : List FileInput) (f : FileInput)
    (hnd : (files.map FileInput.relPath).Nodup)
    (hf : f ∈ files)
    (hlk : alookup f.relPath
      (rebuildState embed hashF parse st files).meta.fileMetadata = none) :
    processFile hashF parse f = none := by
  rw [rebuildState_fm] at hlk
  rcases hpf : processFile hashF parse f with _ | x
  · rfl
  · exfalso
    obtain ⟨hk, c, hgc, hce, -, -⟩ := processFile_some_parts hpf
    rw [alookup_eq_none_iff] at hlk
    have hinchanged : f ∈ newFilesOf st.meta.fileMetadata files ++
        changedFilesOf hashF st.meta.fileMetadata files := by
      rcases hlkfm : alookup f.relPath st.meta.fileMetadata with _ | r
      · refine List.mem_append.mpr (Or.inl ?_)
        unfold newFilesOf
        rw [List.mem_filter]
        exact ⟨hf, by rw [hlkfm]; rfl⟩
      · by_cases hchg : f ∈ changedFilesOf hashF st.meta.fileMetadata files
        · exact List.mem_append.mpr (Or.inr hchg)
        · exfalso
          have hfnotrm : f.relPath ∉ rmOf hashF st.meta.fileMetadata files := by
            intro hmem
            rcases List.mem_append.mp hmem with hdel | hchgm
            · unfold deletedOf at hdel
              obtain ⟨kv, hkv, hkvp⟩ := List.mem_map.mp hdel
              have hncc := (List.mem_filter.mp hkv).2
              rw [hkvp] at hncc
              have : f.relPath ∈ files.map FileInput.relPath :=
                List.mem_map.mpr ⟨f, hf, rfl⟩
              simp [List.contains, List.elem_eq_mem, this] at hncc
            · obtain ⟨g'', hg'', hgp''⟩ := List.mem_map.mp hchgm
              have hg''files : g'' ∈ files := (List.mem_filter.mp hg'').1
              have : g'' = f := List.inj_on_of_nodup_map hnd hg''files hf hgp''
              subst this
              exact hchg hg''
          have hkv := alookup_mem hlkfm
          have hkvfil : (f.relPath, r) ∈ st.meta.fileMetadata.filter
              (fun kv => !(rmOf hashF st.meta.fileMetadata files).contains kv.1) := by
            refine List.mem_filter.mpr ⟨hkv, ?_⟩
            simp only [Bool.not_eq_true']
            exact contains_eq_false_iff.mpr hfnotrm
          exact hlk (f.relPath, r) (List.mem_append.mpr (Or.inl hkvfil)) rfl
    have hx : x ∈ processedOf hashF parse
        (newFilesOf st.meta.fileMetadata files ++
          changedFilesOf hashF st.meta.fileMetadata files) :=
      mem_processedOf.mpr ⟨f, hinchanged, hpf⟩
    refine hlk (x.1, x.2.1) (List.mem_append.mpr (Or.inr ?_)) ?_
    · exact List.mem_map.mpr ⟨x, hx, rfl⟩
    · exact hk

theorem rebuild_deleted_nil (embed : String → Vec) (hashF : String → String)
    (parse : String → String → List Chunk) (st : IndexState)
    (files : List FileInput) :
    deletedOf (rebuildState embed hashF parse st files).meta.fileMetadata files =
      [] := by
  unfold deletedOf
  rw [List.map_eq_nil_iff, List.filter_eq_nil_iff]
  intro kv hkv
  have := rebuild_fm_keys_current embed hashF parse st files kv hkv
  simp only [Bool.not_eq_true']
  rw [contains_eq_true_iff.mpr this]
  simp

theorem rebuild_changed_nil (embed : String → Vec) (hashF : String → String)
    (parse : String → String → List Chunk) (st : IndexState)
    (files : List FileInput)
    (hnd : (files.map FileInput.relPath).Nodup)
    (hndfm : (st.meta.fileMetadata.map Prod.fst).Nodup) :
    changedFilesOf hashF
      (rebuildState embed hashF parse st files).meta.fileMetadata files = [] := by
  unfold changedFilesOf
  rw [List.filter_eq_nil_iff]
  intro f hf
  simp only [Bool.not_eq_true]
  rcases hlk : alookup f.relPath
      (rebuildState embed hashF parse st files).meta.fileMetadata with _ | r
  · simp
  · rcases hc : f.content with _ | c
    · simp
    · rcases rebuild_fm_lookup_hash embed hashF parse st files f r c hnd hndfm
        hf hc hlk with hce | hhash
      · simp [hce]
      · simp [hhash]

theorem rebuild_processed_nil (embed : String → Vec) (hashF : String → String)
    (parse : String → String → List Chunk) (st : IndexState)
    (files : List FileInput)
    (hnd : (files.map FileInput.relPath).Nodup)
    (hndfm : (st.meta.fileMetadata.map Prod.fst).Nodup) :
    processedOf hashF parse
      (newFilesOf (rebuildState embed hashF parse st files).meta.fileMetadata files ++
        changedFilesOf hashF
          (rebuildState embed hashF parse st files).meta.fileMetadata files) = [] := by
  rw [rebuild_changed_nil embed hashF parse st files hnd hndfm, List.append_nil]
  unfold processedOf
  rw [List.filterMap_eq_nil_iff]
  intro f hf
  have hff : f ∈ files := (List.mem_filter.mp hf).1
  have hlk := (List.mem_filter.mp hf).2
  rw [Option.isNone_iff_eq_none] at hlk
  exact rebuild_fm_lookup_none embed hashF parse st files f hnd hff hlk

/-- The state persisted by the rebuild branch is a fixed point of
update: running update again over the same snapshot re-persists it
unchanged. -/
theorem update_fixpoint (embed : String → Vec) (hashF : String → String)
    (parse : String → String → List Chunk) (st : IndexState)
    (files : List FileInput)
    (hnd : (files.map FileInput.relPath).Nodup)
    (hndfm : (st.meta.fileMetadata.map Prod.fst).Nodup) :
    updateIndexWithChunks embed hashF parse
      (updateIndexWithChunks embed hashF parse st files) files =
    updateIndexWithChunks embed hashF parse st files := by
  cases h1 : ((newFilesOf st.meta.fileMetadata files).isEmpty &&
      (changedFilesOf hashF st.meta.fileMetadata files).isEmpty &&
      (deletedOf st.meta.fileMetadata files).isEmpty) with
  | true =>
    rw [update_eq_of_fast h1]
    exact update_eq_of_fast h1
  | false =>
    cases h2 : ((keptPairs st.meta.chunks (rmOf hashF st.meta.fileMetadata files)).isEmpty &&
        (newChunksOf hashF parse st.meta.fileMetadata files).isEmpty) with
    | true =>
      rw [update_eq_of_nosave h2]
      exact update_eq_of_nosave h2
    | false =>
      rw [update_eq_of_rebuild h1 h2]
      have hdel2 := rebuild_deleted_nil embed hashF parse st files
      have hchg2 := rebuild_changed_nil embed hashF parse st files hnd hndfm
      have hproc2 := rebuild_processed_nil embed hashF parse st files hnd hndfm
      have hrm2 : rmOf hashF
          (rebuildState embed hashF parse st files).meta.fileMetadata files = [] := by
        unfold rmOf
        rw [hdel2, hchg2]
        rfl
      have hnc2 : newChunksOf hashF parse
          (rebuildState embed hashF parse st files).meta.fileMetadata files = [] := by
        unfold newChunksOf
        rw [hproc2]
        rfl
      have hnfm2 : newFmOf hashF parse
          (rebuildState embed hashF parse st files).meta.fileMetadata files = [] := by
        unfold newFmOf
        rw [hproc2]
        rfl
      have hfm2 : (rebuildState embed hashF parse
          (rebuildState embed hashF parse st files) files).meta.fileMetadata =
          (rebuildState embed hashF parse st files).meta.fileMetadata := by
        rw [rebuildState_fm, hrm2, hnfm2, List.append_nil]
        exact List.filter_eq_self.mpr (fun a _ => rfl)
      have hchunks2 : (rebuildState embed hashF parse
          (rebuildState embed hashF parse st files) files).meta.chunks =
          (rebuildState embed hashF parse st files).meta.chunks := by
        rw [rebuildState_chunks, hrm2, hnc2, keptPairs_nil_rm, List.map_nil,
          List.append_nil, List.enum_map_snd]
      have hvecs2 : (rebuildState embed hashF parse
          (rebuildState embed hashF parse st files) files).vecs =
          (rebuildState embed hashF parse st files).vecs := by
        rw [rebuildState_vecs, hrm2, hnc2, keptPairs_nil_rm, List.map_nil,
          List.append_nil, List.enum_map_fst]
        rw [← rebuildState_length_eq embed hashF parse st files]
        exact range_map_getD_vec _
      cases hnew2 : (newFilesOf
          (rebuildState embed hashF parse st files).meta.fileMetadata files).isEmpty with
      | true =>
        apply update_eq_of_fast
        rw [hnew2, hchg2, hdel2]
        rfl
      | false =>
        have hfast2 : ((newFilesOf
            (rebuildState embed hashF parse st files).meta.fileMetadata files).isEmpty &&
            (changedFilesOf hashF
              (rebuildState embed hashF parse st files).meta.fileMetadata files).isEmpty &&
            (deletedOf
              (rebuildState embed hashF parse st files).meta.fileMetadata files).isEmpty) =
            false := by
          rw [hnew2]
          rfl
        cases hchunksR : (rebuildState embed hashF parse st files).meta.chunks with
        | nil =>
          apply update_eq_of_nosave
          rw [hnc2, hrm2, hchunksR]
          rfl
        | cons c0 rest =>
          have hkp2 : keptPairs (rebuildState embed hashF parse st files).meta.chunks
              (rmOf hashF
                (rebuildState embed hashF parse st files).meta.fileMetadata files) =
              (rebuildState embed hashF parse st files).meta.chunks.enum := by
            rw [hrm2, keptPairs_nil_rm]
          have hnosave2 : ((keptPairs
              (rebuildState embed hashF parse st files).meta.chunks
              (rmOf hashF
                (rebuildState embed hashF parse st files).meta.fileMetadata files)).isEmpty &&
              (newChunksOf hashF parse
                (rebuildState embed hashF parse st files).meta.fileMetadata files).isEmpty) =
              false := by
            rw [hkp2, hchunksR]
            simp [List.enum_cons]
          rw [update_eq_of_rebuild hfast2 hnosave2]
          refine indexState_ext hvecs2 hchunks2 hfm2 ?_ ?_
          · rw [rebuildState_numFiles, hfm2]
            rw [rebuildState_numFiles embed hashF parse st files]
          · rw [rebuildState_numChunks, hchunks2]
            rw [rebuildState_numChunks embed hashF parse st files]

/-- C4.  Update is idempotent: over any snapshot with distinct relative
paths and a persisted index with distinct file-metadata keys, running
update_index twice with no filesystem change in between leaves
num_files, num_chunks and the whole persisted chunk list (hence every
chunk's id and content) identical after the second run to their values
after the first - indeed the entire persisted state is re-persisted
unchanged (updated_at is not part of the model; it is the only field
the source refreshes).  (indexer.py lines 427-432) -/
theorem update_idempotent (embed : String → Vec) (hashF : String → String)
    (parse : String → String → List Chunk) (st : IndexState)
    (files : List FileInput)
    (hnd : (files.map FileInput.relPath).Nodup)
    (hndfm : (st.meta.fileMetadata.map Prod.fst).Nodup) :
    (updateIndexWithChunks embed hashF parse
        (updateIndexWithChunks embed hashF parse st files) files).meta.numFiles =
      (updateIndexWithChunks embed hashF parse st files).meta.numFiles ∧
    (updateIndexWithChunks embed hashF parse
        (updateIndexWithChunks embed hashF parse st files) files).meta.numChunks =
      (updateIndexWithChunks embed hashF parse st files).meta.numChunks ∧
    (updateIndexWithChunks embed hashF parse
        (updateIndexWithChunks embed hashF parse st files) files).meta.chunks =
      (updateIndexWithChunks embed hashF parse st files).meta.chunks ∧
    updateIndexWithChunks embed hashF parse
        (updateIndexWithChunks embed hashF parse st files) files =
      updateIndexWithChunks embed hashF parse st files := by
  have h := update_fixpoint embed hashF parse st files hnd hndfm
  exact ⟨by rw [h], by rw [h], by rw [h], h⟩

/-- Witness for C4 at the concrete two-file index (a.py changed, b.py
unchanged): the second update re-persists the first update's state. -/
theorem update_idempotent_witness :
    (updateIndexWithChunks embedW hashW parseW
        (updateIndexWithChunks embedW hashW parseW stC2 filesC2) filesC2).meta.numFiles =
      (updateIndexWithChunks embedW hashW parseW stC2 filesC2).meta.numFiles ∧
    (updateIndexWithChunks embedW hashW parseW
        (updateIndexWithChunks embedW hashW parseW stC2 filesC2) filesC2).meta.numChunks =
      (updateIndexWithChunks embedW hashW parseW stC2 filesC2).meta.numChunks ∧
    (updateIndexWithChunks embedW hashW parseW
        (updateIndexWithChunks embedW hashW parseW stC2 filesC2) filesC2).meta.chunks =
      (updateIndexWithChunks embedW hashW parseW stC2 filesC2).meta.chunks ∧
    updateIndexWithChunks embedW hashW parseW
        (updateIndexWithChunks embedW hashW parseW stC2 filesC2) filesC2 =
      updateIndexWithChunks embedW hashW parseW stC2 filesC2 :=
  update_idempotent embedW hashW parseW stC2 filesC2 (by decide) (by decide)
